import Mathlib

/-!
Verification development for the Apache access-log analysis scripts
(`parsing_1.py`, `parsing_2.py`, `parsing.py`).

The line grammar of both scripts is the anchored regular expression
(`APACHE_LOG_REGEX`, identical up to capture groups):

  ^TOK( TOK)? TOK \[\d\d/\www\w/\d\d\d\d:\d\d:\d\d:\d\d -\d\d\d\d\] "REQ" \d\d\d [0-9-]+$

where TOK = [_0-9.A-Za-z-]+, and REQ is `(.*)` in parsing_2.py and
`[^"]*` in parsing_1.py.  The embedding below models the per-line regex
match (the scripts run the regex with re.MULTILINE over the whole text,
and no character class of the pattern other than `[^"]` matches a
newline, so matching is per `\n`-separated segment), the
`datetime.strptime` / `strftime` calls, and the aggregation pipeline of
`parsing_2.py`'s `main`.
-/

/-- Python exception classes that the scripts can raise. -/
inductive PyErr where
  | valueError : PyErr
  | indexError : PyErr
deriving DecidableEq, Repr

/-- Character class `[_0-9.A-Za-z-]` used for hostname / identity / userid. -/
def isTokenChar (c : Char) : Bool :=
  c = '_' || c.isDigit || c = '.' || c.isAlpha || c = '-'

/-- Character class `\w` (re default: `[a-zA-Z0-9_]` for ASCII input). -/
def isWordChar (c : Char) : Bool :=
  c.isAlphanum || c = '_'

/-- Character class `[0-9-]` of the response-size field. -/
def isSizeChar (c : Char) : Bool :=
  c.isDigit || c = '-'

/-- Numeric value of a digit character. -/
def c2d (c : Char) : Nat := c.toNat - 48

/-- Digit character of a value below ten. -/
def digitChar (n : Nat) : Char := Char.ofNat (48 + n)

/-- Gregorian leap-year rule (as in Python's `calendar`/`datetime`). -/
def isLeap (y : Nat) : Bool :=
  y % 4 == 0 && (y % 100 != 0 || y % 400 == 0)

/-- Days in a month of the proleptic Gregorian calendar. -/
def daysInMonth (y m : Nat) : Nat :=
  if m = 2 then (if isLeap y then 29 else 28)
  else if m = 4 || m = 6 || m = 9 || m = 11 then 30
  else 31

/-- Days in the given year strictly before month `m` (Python `_days_before_month`). -/
def daysBeforeMonth (y m : Nat) : Nat :=
  (match m with
   | 1 => 0 | 2 => 31 | 3 => 59 | 4 => 90 | 5 => 120 | 6 => 151
   | 7 => 181 | 8 => 212 | 9 => 243 | 10 => 273 | 11 => 304 | 12 => 334
   | _ => 0)
  + (if 2 < m && isLeap y then 1 else 0)

/-- Days strictly before January 1 of year `y` (Python `_days_before_year`,
with Python's floor division). -/
def daysBeforeYearZ (y : Int) : Int :=
  let n := y - 1
  365 * n + n.fdiv 4 - n.fdiv 100 + n.fdiv 400

/-- Proleptic Gregorian ordinal of a calendar date (Python `_ymd2ord`):
January 1 of year 1 is day 1. -/
def toOrdinal (y m d : Nat) : Int :=
  daysBeforeYearZ y + daysBeforeMonth y m + d

/-- Ordinal of the Monday starting ISO week 1 of `year`
(Python `datetime._isoweek1monday`). -/
def isoweek1monday (year : Int) : Int :=
  let firstday := daysBeforeYearZ year + 1
  let firstweekday := (firstday + 6) % 7
  let week1monday := firstday - firstweekday
  if firstweekday > 3 then week1monday + 7 else week1monday

/-- ISO (year, week) of a calendar date, following the algorithm of
`datetime.date.isocalendar` (weekday component discarded, as the script does). -/
def isocalendarYW (y m d : Nat) : Int × Nat :=
  let today := toOrdinal y m d
  let week := Int.fdiv (today - isoweek1monday y) 7
  if week < 0 then
    ((y : Int) - 1, ((Int.fdiv (today - isoweek1monday ((y : Int) - 1)) 7).toNat + 1))
  else if week ≥ 52 then
    if today ≥ isoweek1monday ((y : Int) + 1) then ((y : Int) + 1, 1)
    else ((y : Int), week.toNat + 1)
  else ((y : Int), week.toNat + 1)

/-- A timezone-aware timestamp as produced by `datetime.strptime` with
format `%d/%b/%Y:%H:%M:%S %z`: wall-clock fields plus the UTC offset in
minutes. -/
structure DateTime where
  year : Nat
  month : Nat
  day : Nat
  hour : Nat
  minute : Nat
  second : Nat
  offMin : Int
deriving DecidableEq, Repr

/-- Comparison key of an aware `datetime`: Python compares aware datetimes
by their UTC instant, i.e. wall-clock seconds minus the UTC offset. -/
def dateKey (dt : DateTime) : Int :=
  toOrdinal dt.year dt.month dt.day * 86400
    + (3600 * dt.hour + 60 * dt.minute + dt.second : Nat)
    - 60 * dt.offMin

/-- Month-abbreviation table of `%b` (matched case-insensitively by
`_strptime`, which compiles its regex with IGNORECASE). -/
def monthTable : List ((Char × Char × Char) × Nat) :=
  [(('j','a','n'), 1), (('f','e','b'), 2), (('m','a','r'), 3),
   (('a','p','r'), 4), (('m','a','y'), 5), (('j','u','n'), 6),
   (('j','u','l'), 7), (('a','u','g'), 8), (('s','e','p'), 9),
   (('o','c','t'), 10), (('n','o','v'), 11), (('d','e','c'), 12)]

/-- Case-insensitive lookup of a three-letter month abbreviation (`%b`). -/
def monthOfAbbrev (a b c : Char) : Option Nat :=
  (monthTable.find? (fun p => p.1 = (a.toLower, b.toLower, c.toLower))).map (·.2)

/-- Canonical rendering of a month by `strftime` `%b` (C locale). -/
def monthAbbrev (m : Nat) : List Char :=
  match m with
  | 1 => ['J','a','n'] | 2 => ['F','e','b'] | 3 => ['M','a','r']
  | 4 => ['A','p','r'] | 5 => ['M','a','y'] | 6 => ['J','u','n']
  | 7 => ['J','u','l'] | 8 => ['A','u','g'] | 9 => ['S','e','p']
  | 10 => ['O','c','t'] | 11 => ['N','o','v'] | _ => ['D','e','c']

/-- `datetime.strptime(s, "%d/%b/%Y:%H:%M:%S %z")` on the 26-character
date group captured by the regex (shape `dd/www/dddd:dd:dd:dd -dddd`
guaranteed by the outer match).  Any invalid calendar value raises
ValueError: `_strptime` rejects out-of-range two-digit fields (the next
literal of its internal regex then fails), and the `datetime`
constructor rejects day/second/year values out of range; `timezone`
requires the offset magnitude to stay below 24 hours. -/
def strptimeApache (dc : List Char) : Except PyErr DateTime :=
  match dc with
  | [d1,d2,q1,a,b,c,q2,y1,y2,y3,y4,q3,h1,h2,q4,m1,m2,q5,s1,s2,q6,q7,z1,z2,z3,z4] =>
    if q1 = '/' ∧ q2 = '/' ∧ q3 = ':' ∧ q4 = ':' ∧ q5 = ':' ∧ q6 = ' ' ∧ q7 = '-' then
      match monthOfAbbrev a b c with
      | none => .error .valueError
      | some mon =>
        let day := 10 * c2d d1 + c2d d2
        let year := 1000 * c2d y1 + 100 * c2d y2 + 10 * c2d y3 + c2d y4
        let hour := 10 * c2d h1 + c2d h2
        let minute := 10 * c2d m1 + c2d m2
        let second := 10 * c2d s1 + c2d s2
        let offAbs := 60 * (10 * c2d z1 + c2d z2) + (10 * c2d z3 + c2d z4)
        if year < 1 then .error .valueError
        else if day < 1 ∨ daysInMonth year mon < day then .error .valueError
        else if 23 < hour ∨ 59 < minute ∨ 59 < second then .error .valueError
        else if 1439 < offAbs then .error .valueError
        else .ok ⟨year, mon, day, hour, minute, second, -(offAbs : Int)⟩
    else .error .valueError
  | _ => .error .valueError

/-- One parsed log line (`LogLine` of parsing_2.py).  `status_code` and
`response_size` are kept as the captured strings, exactly as the source
stores `match.group(6)` and `match.group(7)`; `identity` is `None` when
the optional second token is absent. -/
structure LogLine where
  hostname : List Char
  identity : Option (List Char)
  user_id : List Char
  date : DateTime
  request : List Char
  status_code : List Char
  response_size : List Char
deriving DecidableEq, Repr

/-- Integer value of the three-digit status string. -/
def statusVal (r : LogLine) : Nat :=
  r.status_code.foldl (fun a c => 10 * a + c2d c) 0

/-- The fixed 26-character date group `\d{2}/\w{3}/\d{4}:\d{2}:\d{2}:\d{2} -\d{4}`
followed by `\] \"`: returns the captured date characters and the rest of
the line after the opening quote. -/
def parseDateQuote (l : List Char) : Option (List Char × List Char) :=
  match l with
  | d1::d2::q1::a::b::c::q2::y1::y2::y3::y4::q3::h1::h2::q4::m1::m2::q5::s1::s2::q6::q7::z1::z2::z3::z4::q8::q9::q10::rest =>
    if d1.isDigit = true ∧ d2.isDigit = true ∧ q1 = '/' ∧
       isWordChar a = true ∧ isWordChar b = true ∧ isWordChar c = true ∧ q2 = '/' ∧
       y1.isDigit = true ∧ y2.isDigit = true ∧ y3.isDigit = true ∧ y4.isDigit = true ∧ q3 = ':' ∧
       h1.isDigit = true ∧ h2.isDigit = true ∧ q4 = ':' ∧
       m1.isDigit = true ∧ m2.isDigit = true ∧ q5 = ':' ∧
       s1.isDigit = true ∧ s2.isDigit = true ∧ q6 = ' ' ∧ q7 = '-' ∧
       z1.isDigit = true ∧ z2.isDigit = true ∧ z3.isDigit = true ∧ z4.isDigit = true ∧
       q8 = ']' ∧ q9 = ' ' ∧ q10 = '"' then
      some ([d1,d2,q1,a,b,c,q2,y1,y2,y3,y4,q3,h1,h2,q4,m1,m2,q5,s1,s2,q6,q7,z1,z2,z3,z4], rest)
    else none
  | _ => none

/-- One `[_0-9.A-Za-z-]+` token: the maximal run of token characters,
which must be non-empty; returns the token and the rest. -/
def parseToken (w : List Char) : Option (List Char × List Char) :=
  let t := w.takeWhile isTokenChar
  if t.isEmpty then none else some (t, w.dropWhile isTokenChar)

/-- The part of the regex before the request:
`^TOK(?: TOK)? SP TOK SP \[DATE\] SP \"` — written with the token reader
above.  The token class contains neither the space nor `[`, so each `+`
must take its maximal run, and the 2-token versus 3-token reading is
decided by whether `[` follows the second run; this is the unique way
the backtracking regex can match. -/
def parseHead (l : List Char) :
    Option (List Char × Option (List Char) × List Char × List Char × List Char) :=
  match parseToken l with
  | none => none
  | some (t1, r1) =>
    match r1 with
    | ' ' :: r2 =>
      match parseToken r2 with
      | none => none
      | some (t2, r3) =>
        match r3 with
        | ' ' :: '[' :: r5 => (parseDateQuote r5).map (fun p => (t1, none, t2, p.1, p.2))
        | ' ' :: r4 =>
          match parseToken r4 with
          | none => none
          | some (t3, r6) =>
            match r6 with
            | ' ' :: '[' :: r7 => (parseDateQuote r7).map (fun p => (t1, some t2, t3, p.1, p.2))
            | _ => none
        | _ => none
    | _ => none

/-- The closing pattern `\" (\d{3}) ([0-9-]+)$` tried at one position of
the remainder: a quote, a space, exactly three digits, a space, and a
non-empty `[0-9-]+` run extending to the end of the line. -/
def closeTail (l : List Char) : Option ((Char × Char × Char) × List Char) :=
  match l with
  | '"' :: ' ' :: d1 :: d2 :: d3 :: ' ' :: sz =>
    if d1.isDigit && d2.isDigit && d3.isDigit && !sz.isEmpty && sz.all isSizeChar then
      some ((d1, d2, d3), sz)
    else none
  | _ => none

/-- Greedy match of `(.*)\" (\d{3}) ([0-9-]+)$` (parsing_2.py): the
request is the longest prefix (never containing a newline, which `.`
does not match) whose remainder matches the closing pattern. -/
def tail2 (l : List Char) : Option (List Char × (Char × Char × Char) × List Char) :=
  match l with
  | [] => none
  | c :: cs =>
    match (if c = '\n' then none else tail2 cs) with
    | some (req, st, sz) => some (c :: req, st, sz)
    | none => (closeTail (c :: cs)).map (fun p => ([], p.1, p.2))

/-- Match of `[^\"]*\" \d{3} [0-9-]+$` (parsing_1.py): `[^\"]*` can only
stop at the first quote of the remainder (any shorter prefix is followed
by a non-quote character, failing the literal `\"`). -/
def tail1 (l : List Char) : Bool :=
  match l.dropWhile (fun c => !(c = '"')) with
  | '"' :: ' ' :: d1 :: d2 :: d3 :: ' ' :: sz =>
    d1.isDigit && d2.isDigit && d3.isDigit && !sz.isEmpty && sz.all isSizeChar
  | _ => false

/-- All capture groups of a successful `APACHE_LOG_REGEX` match
(parsing_2.py's groups 1-7). -/
structure RawMatch where
  host : List Char
  identity : Option (List Char)
  user : List Char
  dateChars : List Char
  request : List Char
  status : Char × Char × Char
  size : List Char
deriving DecidableEq, Repr

/-- Full-line match of parsing_2.py's `APACHE_LOG_REGEX`. -/
def shapeMatch (l : List Char) : Option RawMatch :=
  match parseHead l with
  | none => none
  | some (h, idt, u, dc, rest) =>
    match tail2 rest with
    | none => none
    | some (req, st, sz) => some ⟨h, idt, u, dc, req, st, sz⟩

/-- Acceptance by parsing_2.py's line matcher (request field `.*`). -/
def match2 (l : List Char) : Bool := (shapeMatch l).isSome

/-- Acceptance by parsing_1.py's line matcher (request field `[^\"]*`;
the part before the request is identical in the two regexes). -/
def match1 (l : List Char) : Bool :=
  match parseHead l with
  | none => false
  | some (_, _, _, _, rest) => tail1 rest

/-- `LogLine.__init__` applied to one regex match: every field is the
captured string, except the date which goes through `strptime` and can
raise ValueError. -/
def parseLine (l : List Char) : Except PyErr (Option LogLine) :=
  match shapeMatch l with
  | none => .ok none
  | some m =>
    match strptimeApache m.dateChars with
    | .error e => .error e
    | .ok dt => .ok (some ⟨m.host, m.identity, m.user, dt, m.request, [m.status.1, m.status.2.1, m.status.2.2], m.size⟩)

/-- Split a character list at every newline (the segments scanned by the
MULTILINE anchors `^`/`$`). -/
def splitLines (l : List Char) : List (List Char) :=
  match l with
  | [] => [[]]
  | c :: rest =>
    if c = '\n' then [] :: splitLines rest
    else
      match splitLines rest with
      | [] => [[c]]
      | h :: t => (c :: h) :: t

/-- The list comprehension of `read_many_from`: non-matching segments are
skipped, and the first ValueError from `LogLine.__init__` aborts the
whole batch. -/
def readLines (ls : List (List Char)) : Except PyErr (List LogLine) :=
  match ls with
  | [] => .ok []
  | l :: rest =>
    match parseLine l with
    | .error e => .error e
    | .ok none => readLines rest
    | .ok (some r) => (readLines rest).map (fun rs => r :: rs)

/-- `LogLine.read_many_from(log_contents)` of parsing_2.py. -/
def read_many_from (log_contents : String) : Except PyErr (List LogLine) :=
  readLines (splitLines log_contents.data)

/-- Two-digit zero-padded decimal rendering (for n ≤ 99). -/
def pad2 (n : Nat) : List Char := [digitChar (n / 10), digitChar (n % 10)]

/-- Four-digit zero-padded decimal rendering (for n ≤ 9999). -/
def pad4 (n : Nat) : List Char :=
  [digitChar (n / 1000), digitChar (n / 100 % 10), digitChar (n / 10 % 10), digitChar (n % 10)]

/-- `strftime` `%z` on a fixed-offset timezone: sign (`+` for a
non-negative offset, in particular for the zero offset), then hours and
minutes of the offset magnitude. -/
def offStr (m : Int) : List Char :=
  if m < 0 then '-' :: (pad2 ((-m).toNat / 60) ++ pad2 ((-m).toNat % 60))
  else '+' :: (pad2 (m.toNat / 60) ++ pad2 (m.toNat % 60))

/-- `date.strftime("%d/%b/%Y:%H:%M:%S %z")` used by `LogLine.__str__`. -/
def strftimeApache (dt : DateTime) : List Char :=
  pad2 dt.day ++ '/' :: (monthAbbrev dt.month ++ '/' :: (pad4 dt.year ++
    ':' :: (pad2 dt.hour ++ ':' :: (pad2 dt.minute ++ ':' :: (pad2 dt.second ++
    ' ' :: offStr dt.offMin)))))

/-- `LogLine.__str__`: the identity is preceded by a space when present
(`None` is falsy, and a captured identity is never the empty string). -/
def strRecord (r : LogLine) : List Char :=
  r.hostname
    ++ (match r.identity with | some i => ' ' :: i | none => [])
    ++ ' ' :: (r.user_id
    ++ ' ' :: '[' :: (strftimeApache r.date
    ++ ']' :: ' ' :: '"' :: (r.request
    ++ '"' :: ' ' :: (r.status_code
    ++ ' ' :: r.response_size))))

/-- `str(r)` as a Lean string. -/
def strRecordS (r : LogLine) : String := String.mk (strRecord r)

deriving instance DecidableEq for Except

/-- Insertion-ordered dictionary increment: the `if k in d: d[k] += 1
else: d[k] = 1` idiom.  A Python dict preserves insertion order, so a new
key is appended at the end. -/
def dictIncr (d : List (List Char × Nat)) (k : List Char) : List (List Char × Nat) :=
  match d with
  | [] => [(k, 1)]
  | (k', v) :: rest => if k = k' then (k', v + 1) :: rest else (k', v) :: dictIncr rest k

/-- Same idiom for `(year, month, day)` keys (`requests_per_day`). -/
def dictIncrD (d : List ((Nat × Nat × Nat) × Nat)) (k : Nat × Nat × Nat) :
    List ((Nat × Nat × Nat) × Nat) :=
  match d with
  | [] => [(k, 1)]
  | (k', v) :: rest => if k = k' then (k', v + 1) :: rest else (k', v) :: dictIncrD rest k

/-- Same idiom for `(iso year, iso week)` keys (`requests_per_week`). -/
def dictIncrW (d : List ((Int × Nat) × Nat)) (k : Int × Nat) : List ((Int × Nat) × Nat) :=
  match d with
  | [] => [(k, 1)]
  | (k', v) :: rest => if k = k' then (k', v + 1) :: rest else (k', v) :: dictIncrW rest k

/-- Same idiom for `(year, month)` keys (`requests_per_month`). -/
def dictIncrM (d : List ((Nat × Nat) × Nat)) (k : Nat × Nat) : List ((Nat × Nat) × Nat) :=
  match d with
  | [] => [(k, 1)]
  | (k', v) :: rest => if k = k' then (k', v + 1) :: rest else (k', v) :: dictIncrM rest k

/-- Membership test `k in d`. -/
def dictMemD (d : List ((Nat × Nat × Nat) × Nat)) (k : Nat × Nat × Nat) : Bool :=
  d.any (fun p => p.1 = k)

/-- Dictionary lookup with default 0 (the value of an absent counter). -/
def lookupD (d : List (List Char × Nat)) (k : List Char) : Nat :=
  match d with
  | [] => 0
  | (k', v) :: rest => if k = k' then v else lookupD rest k

/-- Lookup in the per-week dictionary. -/
def lookupW (d : List ((Int × Nat) × Nat)) (k : Int × Nat) : Nat :=
  match d with
  | [] => 0
  | (k', v) :: rest => if k = k' then v else lookupW rest k

/-- State of the counting loop of parsing_2.py's `main` (lines 76-129):
the three dictionaries plus the loop-carried `week` variable.  In the
source, `iso_date = day.isocalendar()` and `week = (iso_date.year,
iso_date.week)` are indented inside the `else` branch of the per-day
update, so `week` is only recomputed when the current record's day is
seen for the first time; otherwise the stale value from an earlier
iteration is used.  `weekVar = none` models the state before the first
assignment (the first iteration always takes the `else` branch, so the
variable is always initialised before its first use). -/
structure CountState where
  perDay : List ((Nat × Nat × Nat) × Nat)
  perWeek : List ((Int × Nat) × Nat)
  perMonth : List ((Nat × Nat) × Nat)
  weekVar : Option (Int × Nat)
deriving DecidableEq, Repr

/-- One iteration of the counting loop. -/
def countStep (st : CountState) (r : LogLine) : CountState :=
  let day := (r.date.year, r.date.month, r.date.day)
  let weekVar' :=
    if dictMemD st.perDay day then st.weekVar
    else some (isocalendarYW r.date.year r.date.month r.date.day)
  let perWeek' :=
    match weekVar' with
    | some w => dictIncrW st.perWeek w
    | none => st.perWeek
  { perDay := dictIncrD st.perDay day
    perWeek := perWeek'
    perMonth := dictIncrM st.perMonth (r.date.year, r.date.month)
    weekVar := weekVar' }

/-- The whole counting loop, started from three empty dictionaries. -/
def runCounts (lines : List LogLine) : CountState :=
  lines.foldl countStep ⟨[], [], [], none⟩

/-- `log_lines.sort(key=lambda line: line.date)`: Python's sort is
stable, and any stable sort by a key produces the same list, so it is
modelled by insertion sort on the aware-datetime comparison key. -/
def sortByDate (lines : List LogLine) : List LogLine :=
  List.insertionSort (fun a b => dateKey a.date ≤ dateKey b.date) lines

/-- The comparison keys of the sorted sequence. -/
def sortedKeys (lines : List LogLine) : List Int :=
  (sortByDate lines).map (fun r => dateKey r.date)

/-- `datetime.replace(month=m)`: ValueError unless `1 <= m <= 12` and the
(unchanged) day is valid in the resulting month. -/
def replaceMonth (dt : DateTime) (m : Int) : Except PyErr DateTime :=
  if m < 1 || 12 < m then .error .valueError
  else if daysInMonth dt.year m.toNat < dt.day then .error .valueError
  else .ok { dt with month := m.toNat }

/-- `last_date.replace(month=last_date.month - 6)` — the six-month cutoff
computation of both scripts (`six_months_before_last`). -/
def six_months_before_last (last : DateTime) : Except PyErr DateTime :=
  replaceMonth last ((last.month : Int) - 6)

/-- The loop of `bisect_left(..., lo=0, hi=len)`:
while lo < hi: mid = (lo+hi)//2; if a[mid] < x then lo = mid+1 else hi = mid.
The extra fuel argument only bounds the number of iterations: the
interval `hi - lo` shrinks by at least one per iteration, so any fuel of
at least `hi - lo` (the initial list length suffices) reproduces the
Python loop exactly. -/
def bisectLoop (ks : List Int) (x : Int) : Nat → Nat → Nat → Nat
  | 0, lo, _ => lo
  | fuel + 1, lo, hi =>
    if lo < hi then
      if ks.getD ((lo + hi) / 2) 0 < x then bisectLoop ks x fuel ((lo + hi) / 2 + 1) hi
      else bisectLoop ks x fuel lo ((lo + hi) / 2)
    else lo

/-- `bisect.bisect_left` on the list of comparison keys. -/
def bisect_left (ks : List Int) (x : Int) : Nat := bisectLoop ks x ks.length 0 ks.length

/-- `six_months_index`: insertion point of the cutoff in the sorted list
(records are compared through their `date` key). -/
def six_months_index (lines : List LogLine) (cutoff : DateTime) : Nat :=
  bisect_left (sortedKeys lines) (dateKey cutoff)

/-- `last_six_months = log_lines[six_months_index:]`. -/
def last_six_months (lines : List LogLine) (cutoff : DateTime) : List LogLine :=
  (sortByDate lines).drop (six_months_index lines cutoff)

/-- `requests_dict`, built by iterating the (already sorted) `log_lines`. -/
def requests_dict (lines : List LogLine) : List (List Char × Nat) :=
  (sortByDate lines).foldl (fun d r => dictIncr d r.request) []

/-- The initial `'start'` placeholder of the max/min request loops. -/
def startName : List Char := ['s', 't', 'a', 'r', 't']

/-- The max-requests loop: iterate the dict in insertion order, update on
a strictly greater count (`requests_dict[request] > max_requests`). -/
def maxLoop (d : List (List Char × Nat)) : Nat × List Char :=
  d.foldl (fun acc p => if acc.1 < p.2 then (p.2, p.1) else acc) (0, startName)

/-- `float("inf")` as the initial minimum: `none` compares greater than
every count. -/
def ltInf (c : Nat) (b : Option Nat) : Bool :=
  match b with
  | none => true
  | some v => c < v

/-- The min-requests loop (`requests_dict[request] < min_requests`, with
`min_requests` starting at infinity). -/
def minLoop (d : List (List Char × Nat)) : Option Nat × List Char :=
  d.foldl (fun acc p => if ltInf p.2 acc.1 then (some p.2, p.1) else acc) (none, startName)

/-- `max_requests_name` computed by `main` from a record sequence. -/
def max_requests_name (lines : List LogLine) : List Char :=
  (maxLoop (requests_dict lines)).2

/-- `min_requests_name` computed by `main`. -/
def min_requests_name (lines : List LogLine) : List Char :=
  (minLoop (requests_dict lines)).2

/-- First-occurrence deduplication (the key order of a Python dict). -/
def dedupAux (seen : List (List Char)) : List (List Char) → List (List Char)
  | [] => []
  | x :: xs => if x ∈ seen then dedupAux seen xs else x :: dedupAux (x :: seen) xs

/-- Keys of `requests_dict` in insertion order. -/
def dedupFirst (xs : List (List Char)) : List (List Char) := dedupAux [] xs

/-- The aggregate outputs of parsing_2.py's `main` (the values it prints
or writes, computed after the parse). -/
structure AggResults where
  perDay : List ((Nat × Nat × Nat) × Nat)
  perWeek : List ((Int × Nat) × Nat)
  perMonth : List ((Nat × Nat) × Nat)
  firstDate : DateTime
  lastDate : DateTime
  cutoff : DateTime
  window : List LogLine
  redirectCount : Nat
  errorCount : Nat
  maxName : List Char
  minName : List Char
deriving DecidableEq, Repr

/-- The aggregation phase of `main` on the parsed records: the counting
loop, then `log_lines.sort(...)`, then `log_lines[-1]` (IndexError on an
empty list), the six-month cutoff (`replace` may raise ValueError), the
bisect window, the redirect/error counters (`status_code[0]`), and the
max/min request loops. -/
def mainAgg (lines : List LogLine) : Except PyErr AggResults :=
  let cs := runCounts lines
  let sorted := sortByDate lines
  match h : sorted with
  | [] => .error .indexError
  | f :: rest =>
    let lastLine := (f :: rest).getLast (by simp)
    match six_months_before_last lastLine.date with
    | .error e => .error e
    | .ok cutoff =>
      let window := (f :: rest).drop (bisect_left ((f :: rest).map (fun r => dateKey r.date)) (dateKey cutoff))
      let redirects := ((f :: rest).filter (fun r => r.status_code.headD 'x' = '3')).length
      let errors := ((f :: rest).filter (fun r =>
        !(r.status_code.headD 'x' = '3') && r.status_code.headD 'x' = '4')).length
      .ok ⟨cs.perDay, cs.perWeek, cs.perMonth, f.date, lastLine.date, cutoff, window,
           redirects, errors, max_requests_name lines, min_requests_name lines⟩

/-- Validity of the timestamp fields that `strptime` can produce:
calendar-valid date, in-range time of day, and an offset of at most
1439 minutes in magnitude; the regex only admits `-HHMM` offsets, so the
offset is never positive. -/
def dtValid (dt : DateTime) : Bool :=
  1 ≤ dt.year && dt.year ≤ 9999 &&
  1 ≤ dt.month && dt.month ≤ 12 &&
  1 ≤ dt.day && dt.day ≤ daysInMonth dt.year dt.month &&
  dt.hour ≤ 23 && dt.minute ≤ 59 && dt.second ≤ 59 &&
  -1439 ≤ dt.offMin && dt.offMin ≤ 0

/-- Shape invariant of every record built by `read_many_from`: fields
drawn from the capture groups' character classes (the request may
contain quotes but never a newline), a three-digit status, a non-empty
size field, and a valid timestamp. -/
def wfRecord (r : LogLine) : Bool :=
  !r.hostname.isEmpty && r.hostname.all isTokenChar &&
  (match r.identity with
   | none => true
   | some i => !i.isEmpty && i.all isTokenChar) &&
  !r.user_id.isEmpty && r.user_id.all isTokenChar &&
  !r.request.contains '\n' &&
  r.status_code.length = 3 && r.status_code.all Char.isDigit &&
  !r.response_size.isEmpty && r.response_size.all isSizeChar &&
  dtValid r.date

/-- Scenario A's record as the code actually builds it from the
`-0000`-offset variant of the line: the second token `-` is captured as
the identity (three token runs precede the bracket), and `-0000` parses
to the zero UTC offset. -/
def recScenarioA : LogLine :=
  { hostname := "10.0.0.1".data, identity := some "-".data, user_id := "-".data,
    date := ⟨2020, 1, 1, 0, 0, 0, 0⟩, request := "GET / HTTP/1.1".data,
    status_code := "200".data, response_size := "512".data }

/-- A record with a 700 status code, as built from `c9line`. -/
def rec700 : LogLine :=
  { recScenarioA with status_code := "700".data }

/-- A record used by the week-counting scenario: given request string and
date, with a fixed `-0600` offset. -/
def mkRecC (req : String) (y m d : Nat) : LogLine :=
  { hostname := "10.0.0.1".data, identity := some "-".data, user_id := "-".data,
    date := ⟨y, m, d, 0, 0, 0, -360⟩, request := req.data,
    status_code := "200".data, response_size := "512".data }

/-- C1 (counterexample): on the exact Scenario A input, whose offset is
written `+0000`, the parser returns zero records, not one — the regex of
both scripts only admits a minus-sign offset (` -\d{4}`). -/
theorem c1_counterexample :
    read_many_from "10.0.0.1 - - [01/Jan/2020:00:00:00 +0000] \"GET / HTTP/1.1\" 200 512\n" =
      .ok [] := by
  decide

/-- C2 (code bug): a line that passes the grammar's textual shape with an
invalid calendar day (32) is not silently excluded — `LogLine.__init__`
calls `strptime`, whose ValueError propagates out of `read_many_from`
and aborts the whole batch, losing the surrounding valid lines. -/
theorem c2_abort_theorem :
    match2 "10.0.0.2 - - [32/Jan/2020:00:00:00 -0600] \"GET / HTTP/1.1\" 200 512".data = true ∧
    read_many_from
      "10.0.0.1 - - [01/Jan/2020:00:00:00 -0600] \"GET / HTTP/1.1\" 200 512\n10.0.0.2 - - [32/Jan/2020:00:00:00 -0600] \"GET / HTTP/1.1\" 200 512" =
      .error .valueError := by
  constructor
  · decide
  · decide

/-- C3 (code bug): on empty input the parser does return an empty
sequence and the three count dictionaries stay empty, but the aggregate
phase then evaluates `log_lines[-1]` on the empty list — an IndexError,
not an "insufficient data" condition. -/
theorem c3_empty_input_theorem :
    read_many_from "" = .ok [] ∧
    runCounts [] = ⟨[], [], [], none⟩ ∧
    mainAgg [] = .error .indexError := by
  refine ⟨by decide, by decide, by decide⟩

/-- C4 (code bug): the six-month cutoff is raw
`last.replace(month=last.month - 6)`.  When the month subtraction
underflows (March gives month -3) `replace` raises ValueError instead of
decrementing the year, and when the unchanged day is invalid in the
target month (October 31 gives April 31) it raises instead of clamping. -/
theorem c4_cutoff_theorem :
    six_months_before_last ⟨2021, 3, 15, 0, 0, 0, -360⟩ = .error .valueError ∧
    six_months_before_last ⟨2021, 10, 31, 0, 0, 0, -360⟩ = .error .valueError ∧
    six_months_before_last ⟨2021, 7, 15, 0, 0, 0, -360⟩ =
      .ok ⟨2021, 1, 15, 0, 0, 0, -360⟩ := by
  refine ⟨by decide, by decide, by decide⟩

/-- C5 (code bug): in the counting loop, `week = (iso_date.year,
iso_date.week)` is indented inside the `else` branch of the per-day
update, so a record whose day was already counted reuses the stale
`week` value of the last newly-seen day.  With records dated
2020-01-01, 2020-02-01, 2020-01-01 (ISO weeks (2020,1) and (2020,5)),
the third record is counted in (2020,5): the (2020,1) bucket holds 1
although two records fall in that ISO week. -/
theorem c5_week_bucket_theorem :
    (runCounts [mkRecC "/x" 2020 1 1, mkRecC "/x" 2020 2 1, mkRecC "/x" 2020 1 1]).perWeek =
      [((2020, 1), 1), ((2020, 5), 2)] ∧
    isocalendarYW 2020 1 1 = (2020, 1) ∧
    ([mkRecC "/x" 2020 1 1, mkRecC "/x" 2020 2 1, mkRecC "/x" 2020 1 1].filter
      (fun r => isocalendarYW r.date.year r.date.month r.date.day = (2020, 1))).length = 2 := by
  refine ⟨by decide, by decide, by decide⟩

/-- C6 (counterexample): two records with distinct requests `/a` and
`/b`, each occurring once (a tie for both maximum and minimum).  `/a`
occurs first in the original sequence, but `/b` has the earlier
timestamp; the loops iterate the dict built over the *sorted* list, so
both the most- and least-requested name come out as `/b`, not the
first-by-original-occurrence `/a`. -/
theorem c6_counterexample :
    ((([mkRecC "/a" 2021 2 1, mkRecC "/b" 2021 1 1]).map LogLine.request).count "/a".data = 1 ∧
     (([mkRecC "/a" 2021 2 1, mkRecC "/b" 2021 1 1]).map LogLine.request).count "/b".data = 1) ∧
    max_requests_name [mkRecC "/a" 2021 2 1, mkRecC "/b" 2021 1 1] = "/b".data ∧
    min_requests_name [mkRecC "/a" 2021 2 1, mkRecC "/b" 2021 1 1] = "/b".data ∧
    "/b".data ≠ "/a".data := by
  refine ⟨⟨by decide, by decide⟩, by decide, by decide, by decide⟩

/-- C7 (counterexample): a line whose request field contains a double
quote.  parsing_2.py's `(.*)` matches it (request `x" y`), while
parsing_1.py's `[^\"]*` cannot pass the quote, so the two matchers
disagree on this line. -/
theorem c7_counterexample :
    match2 "a - - [01/Jan/2020:00:00:00 -0000] \"x\" y\" 200 12".data = true ∧
    match1 "a - - [01/Jan/2020:00:00:00 -0000] \"x\" y\" 200 12".data = false := by
  exact ⟨by decide, by decide⟩

/-- C9 (counterexample): the status field of the regex is any three
digits, so the input line with status `700` yields a record whose status
code is 700, outside [100,599]. -/
theorem c9_counterexample :
    read_many_from "10.0.0.1 - - [01/Jan/2020:00:00:00 -0000] \"GET / HTTP/1.1\" 700 512\n" =
      .ok [rec700] ∧
    statusVal rec700 = 700 ∧ ¬ statusVal rec700 ≤ 599 := by
  refine ⟨by decide, by decide, by decide⟩

/-- C10 (counterexample): the record parsed from a `-0000` offset line
carries the zero UTC offset, which `strftime %z` renders as `+0000`;
the regex rejects the plus sign, so re-parsing `str(r)` yields zero
records instead of one. -/
theorem c10_counterexample :
    read_many_from "10.0.0.1 - - [01/Jan/2020:00:00:00 -0000] \"GET / HTTP/1.1\" 200 512\n" =
      .ok [recScenarioA] ∧
    strRecordS recScenarioA =
      "10.0.0.1 - - [01/Jan/2020:00:00:00 +0000] \"GET / HTTP/1.1\" 200 512" ∧
    read_many_from (strRecordS recScenarioA) = .ok [] := by
  refine ⟨by decide, by decide, by decide⟩

/-- A digit character decodes to a value below ten. -/
theorem c2d_le_9 {c : Char} (h : c.isDigit = true) : c2d c ≤ 9 := by
  simp only [Char.isDigit, Bool.and_eq_true, decide_eq_true_eq] at h
  obtain ⟨h1, h2⟩ := h
  have h2' : c.val.toNat ≤ 57 := h2
  simp only [c2d, Char.toNat]
  omega

/-- Digit characters of values below ten are digits. -/
theorem isDigit_digitChar {n : Nat} (h : n ≤ 9) : (digitChar n).isDigit = true := by
  interval_cases n <;> decide

/-- Decoding inverts `digitChar` on values below ten. -/
theorem c2d_digitChar {n : Nat} (h : n ≤ 9) : c2d (digitChar n) = n := by
  interval_cases n <;> decide

/-- A digit character differs from any non-digit character. -/
theorem digit_ne {c d : Char} (hc : c.isDigit = true) (hd : d.isDigit = false) : c ≠ d := by
  intro e
  rw [e, hd] at hc
  exact Bool.false_ne_true hc

/-- Decode of the two-digit zero-padded rendering. -/
theorem pad2_decode {n : Nat} (h : n ≤ 99) :
    10 * c2d (digitChar (n / 10)) + c2d (digitChar (n % 10)) = n := by
  rw [c2d_digitChar (by omega), c2d_digitChar (by omega)]
  omega

/-- Decode of the four-digit zero-padded rendering. -/
theorem pad4_decode {n : Nat} (h : n ≤ 9999) :
    1000 * c2d (digitChar (n / 1000)) + 100 * c2d (digitChar (n / 100 % 10)) +
      10 * c2d (digitChar (n / 10 % 10)) + c2d (digitChar (n % 10)) = n := by
  rw [c2d_digitChar (by omega), c2d_digitChar (by omega),
      c2d_digitChar (by omega), c2d_digitChar (by omega)]
  omega

/-- A run of characters satisfying `p` followed by a character violating
`p` is exactly what `takeWhile` captures. -/
theorem takeWhile_run {p : Char → Bool} {h : List Char} {c : Char} {t : List Char}
    (hall : h.all p = true) (hc : p c = false) :
    (h ++ c :: t).takeWhile p = h ∧ (h ++ c :: t).dropWhile p = c :: t := by
  induction h with
  | nil => simp [List.takeWhile, List.dropWhile, hc]
  | cons a h ih =>
    simp only [List.all_cons, Bool.and_eq_true] at hall
    have := ih hall.2
    simp [List.takeWhile, List.dropWhile, hall.1, this.1, this.2]

/-- `tail2` fails on a remainder containing no double quote (the closing
pattern must start with one). -/
theorem tail2_noquote {l : List Char} (h : ∀ c ∈ l, ¬c = '"') : tail2 l = none := by
  induction l with
  | nil => rfl
  | cons c cs ih =>
    have hcs : ∀ x ∈ cs, ¬x = '"' := fun x hx => h x (List.mem_cons_of_mem c hx)
    have hinner : (if c = '\n' then none else tail2 cs) =
        (none : Option (List Char × (Char × Char × Char) × List Char)) := by
      by_cases hc : c = '\n' <;> simp [hc, ih hcs]
    rw [tail2, hinner]
    have hcq : ¬c = '"' := h c (List.mem_cons_self c cs)
    have : closeTail (c :: cs) = none := by
      unfold closeTail
      split
      · rename_i d1 d2 d3 sz heq
        injection heq with hc ht
        exact absurd hc hcq
      · rfl
    rw [this]
    rfl

/-- A size-field character is neither a quote, a newline, nor a space. -/
theorem isSizeChar_ne {c : Char} (h : isSizeChar c = true) :
    ¬c = '"' ∧ ¬c = '\n' ∧ ¬c = ' ' := by
  simp only [isSizeChar, Bool.or_eq_true, decide_eq_true_eq] at h
  rcases h with h | h
  · exact ⟨digit_ne h (by decide), digit_ne h (by decide), digit_ne h (by decide)⟩
  · subst h
    exact ⟨by decide, by decide, by decide⟩

/-- The greedy request match recovers a request followed by a well-formed
closing pattern, because the closing quote is the last quote of the
remainder. -/
theorem tail2_build {req : List Char} {d1 d2 d3 : Char} {sz : List Char}
    (hreq : ∀ c ∈ req, ¬c = '\n')
    (h1 : d1.isDigit = true) (h2 : d2.isDigit = true) (h3 : d3.isDigit = true)
    (hsz : sz ≠ []) (hsza : sz.all isSizeChar = true) :
    tail2 (req ++ '"' :: ' ' :: d1 :: d2 :: d3 :: ' ' :: sz) =
      some (req, (d1, d2, d3), sz) := by
  induction req with
  | nil =>
    have hnq : ∀ c ∈ (' ' :: d1 :: d2 :: d3 :: ' ' :: sz), ¬c = '"' := by
      intro c hc
      rcases List.mem_cons.mp hc with rfl | hc
      · decide
      rcases List.mem_cons.mp hc with rfl | hc
      · exact digit_ne h1 (by decide)
      rcases List.mem_cons.mp hc with rfl | hc
      · exact digit_ne h2 (by decide)
      rcases List.mem_cons.mp hc with rfl | hc
      · exact digit_ne h3 (by decide)
      rcases List.mem_cons.mp hc with rfl | hc
      · decide
      · exact (isSizeChar_ne (List.all_eq_true.mp hsza c hc)).1
    rw [List.nil_append, tail2]
    rw [if_neg (by decide), tail2_noquote hnq]
    have hemp : sz.isEmpty = false := by
      cases sz with
      | nil => exact absurd rfl hsz
      | cons a t => rfl
    simp [closeTail, h1, h2, h3, hemp, hsza]
  | cons c cr ih =>
    have hc : ¬c = '\n' := hreq c (List.mem_cons_self c cr)
    have ihh := ih (fun x hx => hreq x (List.mem_cons_of_mem c hx))
    rw [List.cons_append, tail2, if_neg hc, ihh]

/-- Inversion of the closing-pattern match. -/
theorem closeTail_inv {l : List Char} {st : Char × Char × Char} {sz : List Char}
    (h : closeTail l = some (st, sz)) :
    l = '"' :: ' ' :: st.1 :: st.2.1 :: st.2.2 :: ' ' :: sz ∧
    st.1.isDigit = true ∧ st.2.1.isDigit = true ∧ st.2.2.isDigit = true ∧
    sz ≠ [] ∧ sz.all isSizeChar = true := by
  unfold closeTail at h
  split at h
  · split at h
    · rename_i hguard
      simp only [Bool.and_eq_true, Bool.not_eq_true'] at hguard
      injection h with h'
      injection h' with hst hsz'
      subst hst
      subst hsz'
      refine ⟨rfl, hguard.1.1.1.1, hguard.1.1.1.2, hguard.1.1.2, ?_, hguard.2⟩
      intro he
      rw [he] at hguard
      simp at hguard
    · exact absurd h (by simp)
  · exact absurd h (by simp)

/-- Inversion of the greedy request/status/size match. -/
theorem tail2_inv :
    ∀ {l req : List Char} {st : Char × Char × Char} {sz : List Char},
      tail2 l = some (req, st, sz) →
      l = req ++ '"' :: ' ' :: st.1 :: st.2.1 :: st.2.2 :: ' ' :: sz ∧
      (∀ c ∈ req, ¬c = '\n') ∧
      st.1.isDigit = true ∧ st.2.1.isDigit = true ∧ st.2.2.isDigit = true ∧
      sz ≠ [] ∧ sz.all isSizeChar = true := by
  intro l
  induction l with
  | nil => intro req st sz h; exact absurd h (by simp [tail2])
  | cons c cs ih =>
    intro req st sz h
    rw [tail2] at h
    rcases hin : (if c = '\n' then none else tail2 cs) with _ | ⟨req', st', sz'⟩
    · rw [hin] at h
      simp only [Option.map_eq_some'] at h
      obtain ⟨⟨st0, sz0⟩, hclose, heq⟩ := h
      injection heq with hreq h'
      injection h' with hst hsz
      subst hreq; subst hst; subst hsz
      obtain ⟨hl, hd1, hd2, hd3, hne, hall⟩ := closeTail_inv hclose
      exact ⟨by rw [List.nil_append]; exact hl, by intro x hx; simp at hx,
             hd1, hd2, hd3, hne, hall⟩
    · rw [hin] at h
      injection h with h'
      injection h' with hreq h''
      injection h'' with hst hsz
      subst hst; subst hsz
      have hcn : ¬c = '\n' := by
        intro he
        rw [if_pos he] at hin
        exact Option.noConfusion hin
      rw [if_neg hcn] at hin
      obtain ⟨hl, hnl, hd1, hd2, hd3, hne, hall⟩ := ih hin
      subst hreq
      refine ⟨by rw [hl, List.cons_append], ?_, hd1, hd2, hd3, hne, hall⟩
      intro x hx
      rcases List.mem_cons.mp hx with rfl | hx
      · exact hcn
      · exact hnl x hx

/-- Every month has at most 31 days. -/
theorem daysInMonth_le_31 (y m : Nat) : daysInMonth y m ≤ 31 := by
  unfold daysInMonth
  split
  · split <;> omega
  · split <;> omega

/-- The canonical `%b` rendering of a valid month consists of three word
characters and parses back (case-insensitively) to the same month. -/
theorem monthAbbrev_spec {mo : Nat} (h1 : 1 ≤ mo) (h2 : mo ≤ 12) :
    ∃ a b c : Char, monthAbbrev mo = [a, b, c] ∧ monthOfAbbrev a b c = some mo ∧
      isWordChar a = true ∧ isWordChar b = true ∧ isWordChar c = true := by
  interval_cases mo <;> exact ⟨_, _, _, rfl, by decide, by decide, by decide, by decide⟩

/-- `strptime` inverts `strftime` on every valid timestamp with a
strictly negative offset. -/
theorem strptime_build {y mo d hh mi s : Nat} {off : Int}
    (hmo1 : 1 ≤ mo) (hmo2 : mo ≤ 12) (hy1 : 1 ≤ y) (hy2 : y ≤ 9999)
    (hd1 : 1 ≤ d) (hd2 : d ≤ daysInMonth y mo) (hhh : hh ≤ 23) (hmi : mi ≤ 59) (hs : s ≤ 59)
    (ho1 : -1439 ≤ off) (ho2 : off < 0) :
    strptimeApache (strftimeApache ⟨y, mo, d, hh, mi, s, off⟩) = .ok ⟨y, mo, d, hh, mi, s, off⟩ := by
  have hom : (-off).toNat ≤ 1439 := by omega
  have hd99 : d ≤ 99 := le_trans hd2 (le_trans (daysInMonth_le_31 y mo) (by omega))
  obtain ⟨a, b, c, habc, he, _, _, _⟩ := monthAbbrev_spec hmo1 hmo2
  simp only [strftimeApache, habc]
  simp only [offStr, if_pos ho2, pad2, pad4, List.cons_append, List.nil_append]
  simp only [strptimeApache, he, and_true, true_and, and_self, if_true]
  rw [pad2_decode hd99, pad4_decode hy2,
      pad2_decode (show hh ≤ 99 by omega), pad2_decode (show mi ≤ 99 by omega),
      pad2_decode (show s ≤ 99 by omega), pad2_decode (show (-off).toNat / 60 ≤ 99 by omega),
      pad2_decode (show (-off).toNat % 60 ≤ 99 by omega)]
  rw [if_neg (by omega)]
  rw [if_neg (show ¬(d < 1 ∨ daysInMonth y mo < d) by rintro (h | h) <;> omega)]
  rw [if_neg (show ¬(23 < hh ∨ 59 < mi ∨ 59 < s) by rintro (h | h | h) <;> omega)]
  rw [if_neg (by omega)]
  have hoEq : ((60 * ((-off).toNat / 60) + (-off).toNat % 60 : Nat) : Int) = -off := by omega
  rw [hoEq, neg_neg]

/-- A non-empty check from the `isEmpty` test. -/
theorem ne_nil_of_not_isEmpty {l : List Char} (h : ¬l.isEmpty = true) : l ≠ [] := by
  intro he
  rw [he] at h
  exact h rfl

/-- The token reader on a token followed by a non-token character. -/
theorem parseToken_build {tok : List Char} {c : Char} {rest : List Char}
    (h1 : tok ≠ []) (h2 : tok.all isTokenChar = true) (hc : isTokenChar c = false) :
    parseToken (tok ++ c :: rest) = some (tok, c :: rest) := by
  obtain ⟨t0, tt, rfl⟩ := List.exists_cons_of_ne_nil h1
  have tw := takeWhile_run (h := t0 :: tt) (c := c) (t := rest) h2 hc
  simp only [parseToken, List.cons_append] at *
  rw [tw.1, tw.2]
  simp only [List.isEmpty_cons, Bool.false_eq_true, if_false]

/-- Inversion of the token reader. -/
theorem parseToken_inv {w t r : List Char} (h : parseToken w = some (t, r)) :
    t ≠ [] ∧ t.all isTokenChar = true ∧ t ++ r = w := by
  simp only [parseToken] at h
  split at h
  · exact absurd h (by simp)
  · rename_i hne
    injection h with h'
    injection h' with h1 h2
    subst h1
    subst h2
    exact ⟨ne_nil_of_not_isEmpty hne,
      List.all_eq_true.mpr (fun c hc => List.mem_takeWhile_imp hc),
      List.takeWhile_append_dropWhile isTokenChar w⟩

/-- The head matcher on a rebuilt line without identity. -/
theorem parseHead_build_none {host u z : List Char}
    (hh1 : host ≠ []) (hh2 : host.all isTokenChar = true)
    (hu1 : u ≠ []) (hu2 : u.all isTokenChar = true) :
    parseHead (host ++ ' ' :: (u ++ ' ' :: '[' :: z)) =
      (parseDateQuote z).map (fun p => (host, none, u, p.1, p.2)) := by
  have hsp : isTokenChar ' ' = false := by decide
  have t1 := @parseToken_build _ _ (u ++ ' ' :: '[' :: z) hh1 hh2 hsp
  have t2 := @parseToken_build _ _ ('[' :: z) hu1 hu2 hsp
  simp only [parseHead, t1, t2]

/-- The head matcher on a rebuilt line with an identity token. -/
theorem parseHead_build_some {host idn u z : List Char}
    (hh1 : host ≠ []) (hh2 : host.all isTokenChar = true)
    (hi1 : idn ≠ []) (hi2 : idn.all isTokenChar = true)
    (hu1 : u ≠ []) (hu2 : u.all isTokenChar = true) :
    parseHead (host ++ ' ' :: (idn ++ ' ' :: (u ++ ' ' :: '[' :: z))) =
      (parseDateQuote z).map (fun p => (host, some idn, u, p.1, p.2)) := by
  obtain ⟨u0, ut, rfl⟩ := List.exists_cons_of_ne_nil hu1
  have hsp : isTokenChar ' ' = false := by decide
  have hu0 : isTokenChar u0 = true := List.all_eq_true.mp hu2 u0 (List.mem_cons_self u0 ut)
  have t1 := @parseToken_build _ _ (idn ++ ' ' :: (u0 :: ut ++ ' ' :: '[' :: z)) hh1 hh2 hsp
  have t2 := @parseToken_build _ _ (u0 :: ut ++ ' ' :: '[' :: z) hi1 hi2 hsp
  have t3 := @parseToken_build _ _ ('[' :: z) hu1 hu2 hsp
  simp only [parseHead, t1, t2, List.cons_append] at *
  split
  · rename_i heq
    injection heq with _ heq'
    injection heq' with hc _
    rw [hc] at hu0
    exact absurd hu0 (by decide)
  · rename_i hno heq
    injection heq with _ heq'
    subst heq'
    rw [t3]
    rfl
  · rename_i hno1 hno2
    exact (hno2 (u0 :: (ut ++ ' ' :: '[' :: z)) rfl).elim

/-- A token character is not a newline. -/
theorem tokenChar_ne_nl {c : Char} (h : isTokenChar c = true) : ¬c = '\n' := by
  intro he
  rw [he] at h
  exact absurd h (by decide)

/-- `pad2` renders digits only. -/
theorem pad2_no_nl {n : Nat} (h : n ≤ 99) : ∀ c ∈ pad2 n, ¬c = '\n' := by
  intro c hc
  simp only [pad2, List.mem_cons, List.not_mem_nil, or_false] at hc
  rcases hc with rfl | rfl
  · exact digit_ne (isDigit_digitChar (by omega)) (by decide)
  · exact digit_ne (isDigit_digitChar (by omega)) (by decide)

/-- `pad4` renders digits only. -/
theorem pad4_no_nl {n : Nat} (h : n ≤ 9999) : ∀ c ∈ pad4 n, ¬c = '\n' := by
  intro c hc
  simp only [pad4, List.mem_cons, List.not_mem_nil, or_false] at hc
  rcases hc with rfl | rfl | rfl | rfl <;>
    exact digit_ne (isDigit_digitChar (by omega)) (by decide)

/-- The rendered timestamp contains no newline. -/
theorem strftime_no_nl {dt : DateTime} (hv : dtValid dt = true) :
    ∀ c ∈ strftimeApache dt, ¬c = '\n' := by
  obtain ⟨y, mo, d, hh, mi, s, off⟩ := dt
  simp only [dtValid, Bool.and_eq_true, decide_eq_true_eq] at hv
  obtain ⟨⟨⟨⟨⟨⟨⟨⟨⟨⟨h1, h2⟩, h3⟩, h4⟩, h5⟩, h6⟩, h7⟩, h8⟩, h9⟩, h10⟩, h11⟩ := hv
  intro c hc
  simp only [strftimeApache, List.mem_append, List.mem_cons] at hc
  obtain ⟨a, b, c', habc, _, hwa, hwb, hwc⟩ := monthAbbrev_spec h3 h4
  have hmon : ∀ x ∈ monthAbbrev mo, ¬x = '\n' := by
    rw [habc]
    intro x hx
    simp only [List.mem_cons, List.not_mem_nil, or_false] at hx
    have hw : isWordChar x = true := by rcases hx with rfl | rfl | rfl <;> assumption
    intro he
    rw [he] at hw
    exact absurd hw (by decide)
  have hoff : ∀ x ∈ offStr off, ¬x = '\n' := by
    intro x hx
    have hb : (-off).toNat ≤ 1439 := by omega
    have hb2 : off.toNat ≤ 0 := by omega
    simp only [offStr] at hx
    split at hx <;>
    · simp only [List.mem_cons, List.mem_append] at hx
      rcases hx with rfl | hx
      · decide
      · rcases hx with hx | hx
        · exact pad2_no_nl (by omega) x hx
        · exact pad2_no_nl (by omega) x hx
  have hd99 : d ≤ 99 := le_trans h6 (le_trans (daysInMonth_le_31 y mo) (by omega))
  rcases hc with hc | rfl | hc | rfl | hc | rfl | hc | rfl | hc | rfl | hc | rfl | hc
  · exact pad2_no_nl (by omega) c hc
  · decide
  · exact hmon c hc
  · decide
  · exact pad4_no_nl (by omega) c hc
  · decide
  · exact pad2_no_nl (by omega) c hc
  · decide
  · exact pad2_no_nl (by omega) c hc
  · decide
  · exact pad2_no_nl (by omega) c hc
  · decide
  · exact hoff c hc

/-- The date matcher accepts the rendered timestamp of every valid
record, capturing exactly it. -/
theorem parseDateQuote_strftime {y mo d hh mi s : Nat} {off : Int} (rest : List Char)
    (hmo1 : 1 ≤ mo) (hmo2 : mo ≤ 12) (hy1 : 1 ≤ y) (hy2 : y ≤ 9999)
    (hd1 : 1 ≤ d) (hd2 : d ≤ daysInMonth y mo) (hhh : hh ≤ 23) (hmi : mi ≤ 59) (hs : s ≤ 59)
    (ho1 : -1439 ≤ off) (ho2 : off < 0) :
    parseDateQuote (strftimeApache ⟨y, mo, d, hh, mi, s, off⟩ ++ ']' :: ' ' :: '"' :: rest) =
      some (strftimeApache ⟨y, mo, d, hh, mi, s, off⟩, rest) := by
  have hom : (-off).toNat ≤ 1439 := by omega
  have hd99 : d ≤ 99 := le_trans hd2 (le_trans (daysInMonth_le_31 y mo) (by omega))
  obtain ⟨a, b, c, habc, he, hwa, hwb, hwc⟩ := monthAbbrev_spec hmo1 hmo2
  simp only [strftimeApache, habc, offStr, if_pos ho2, pad2, pad4,
    List.cons_append, List.nil_append, List.append_assoc]
  simp only [parseDateQuote, hwa, hwb, hwc,
    isDigit_digitChar (show d / 10 ≤ 9 by omega), isDigit_digitChar (show d % 10 ≤ 9 by omega),
    isDigit_digitChar (show y / 1000 ≤ 9 by omega), isDigit_digitChar (show y / 100 % 10 ≤ 9 by omega),
    isDigit_digitChar (show y / 10 % 10 ≤ 9 by omega), isDigit_digitChar (show y % 10 ≤ 9 by omega),
    isDigit_digitChar (show hh / 10 ≤ 9 by omega), isDigit_digitChar (show hh % 10 ≤ 9 by omega),
    isDigit_digitChar (show mi / 10 ≤ 9 by omega), isDigit_digitChar (show mi % 10 ≤ 9 by omega),
    isDigit_digitChar (show s / 10 ≤ 9 by omega), isDigit_digitChar (show s % 10 ≤ 9 by omega),
    isDigit_digitChar (show (-off).toNat / 60 / 10 ≤ 9 by omega),
    isDigit_digitChar (show (-off).toNat / 60 % 10 ≤ 9 by omega),
    isDigit_digitChar (show (-off).toNat % 60 / 10 ≤ 9 by omega),
    isDigit_digitChar (show (-off).toNat % 60 % 10 ≤ 9 by omega),
    and_true, true_and, and_self, if_true]

/-- Unpacking of the record well-formedness invariant. -/
theorem wfRecord_spec {r : LogLine} (h : wfRecord r = true) :
    r.hostname ≠ [] ∧ r.hostname.all isTokenChar = true ∧
    (∀ i, r.identity = some i → i ≠ [] ∧ i.all isTokenChar = true) ∧
    r.user_id ≠ [] ∧ r.user_id.all isTokenChar = true ∧
    (∀ c ∈ r.request, ¬c = '\n') ∧
    r.status_code.length = 3 ∧ r.status_code.all Char.isDigit = true ∧
    r.response_size ≠ [] ∧ r.response_size.all isSizeChar = true ∧
    dtValid r.date = true := by
  simp only [wfRecord, Bool.and_eq_true, Bool.not_eq_true', decide_eq_true_eq] at h
  obtain ⟨⟨⟨⟨⟨⟨⟨⟨⟨⟨h1, h2⟩, h3⟩, h4⟩, h5⟩, h6⟩, h7⟩, h8⟩, h9⟩, h10⟩, h11⟩ := h
  refine ⟨?_, h2, ?_, ?_, h5, ?_, h7, h8, ?_, h10, h11⟩
  · intro he; rw [he] at h1; exact absurd h1 (by decide)
  · intro i hi
    rw [hi] at h3
    simp only [Bool.and_eq_true, Bool.not_eq_true'] at h3
    exact ⟨fun he => by rw [he] at h3; exact absurd h3.1 (by decide), h3.2⟩
  · intro he; rw [he] at h4; exact absurd h4 (by decide)
  · intro c hc he
    rw [List.contains_eq_any_beq] at h6
    have h6' : ∀ x ∈ r.request, ¬('\n' = x) := by simpa using h6
    exact h6' c hc he.symm
  · intro he; rw [he] at h9; exact absurd h9 (by decide)

/-- `str(r)` parses back to exactly `r` (one regex match, `strptime`
succeeding) for every well-formed record with a strictly negative
offset. -/
theorem parseLine_build {r : LogLine} (hwf : wfRecord r = true) (hneg : r.date.offMin < 0) :
    parseLine (strRecord r) = .ok (some r) := by
  obtain ⟨hh1, hh2, hid, hu1, hu2, hreq, hst3, hstd, hsz1, hsz2, hval⟩ := wfRecord_spec hwf
  obtain ⟨s1, s2, s3, hst⟩ := List.length_eq_three.mp hst3
  obtain ⟨host, idt, u, dt, req, st, sz⟩ := r
  simp only at hh1 hh2 hid hu1 hu2 hreq hst3 hstd hsz1 hsz2 hval hst hneg
  subst hst
  obtain ⟨y, mo, d, hh, mi, s, off⟩ := dt
  have hvb := hval
  simp only [dtValid, Bool.and_eq_true, decide_eq_true_eq] at hvb
  obtain ⟨⟨⟨⟨⟨⟨⟨⟨⟨⟨b1, b2⟩, b3⟩, b4⟩, b5⟩, b6⟩, b7⟩, b8⟩, b9⟩, b10⟩, b11⟩ := hvb
  simp only at hneg
  have hdigits : s1.isDigit = true ∧ s2.isDigit = true ∧ s3.isDigit = true := by
    simp only [List.all_cons, List.all_nil, Bool.and_eq_true, and_true] at hstd
    exact ⟨hstd.1, hstd.2.1, hstd.2.2⟩
  have htail : tail2 (req ++ '"' :: ' ' :: s1 :: s2 :: s3 :: ' ' :: sz) =
      some (req, (s1, s2, s3), sz) :=
    tail2_build hreq hdigits.1 hdigits.2.1 hdigits.2.2 hsz1 hsz2
  have hdq := @parseDateQuote_strftime y mo d hh mi s off
    (req ++ '"' :: ' ' :: s1 :: s2 :: s3 :: ' ' :: sz)
    b3 b4 b1 b2 b5 b6 b7 b8 b9 b10 hneg
  have hsp := @strptime_build y mo d hh mi s off b3 b4 b1 b2 b5 b6 b7 b8 b9 b10 hneg
  match idt, hid with
  | none, _ =>
    have hph := parseHead_build_none (z := strftimeApache ⟨y, mo, d, hh, mi, s, off⟩ ++
      ']' :: ' ' :: '"' :: (req ++ '"' :: ' ' :: s1 :: s2 :: s3 :: ' ' :: sz)) hh1 hh2 hu1 hu2
    simp only [strRecord, List.nil_append, List.append_assoc, List.cons_append] at *
    simp only [parseLine, shapeMatch, hph, hdq, Option.map_some', htail, hsp]
  | some idn, hid =>
    obtain ⟨hi1, hi2⟩ := hid idn rfl
    have hph := parseHead_build_some (z := strftimeApache ⟨y, mo, d, hh, mi, s, off⟩ ++
      ']' :: ' ' :: '"' :: (req ++ '"' :: ' ' :: s1 :: s2 :: s3 :: ' ' :: sz)) hh1 hh2 hi1 hi2 hu1 hu2
    simp only [strRecord, List.append_assoc, List.cons_append, List.nil_append] at *
    simp only [parseLine, shapeMatch, hph, hdq, Option.map_some', htail, hsp]

/-- A newline-free text is a single segment. -/
theorem splitLines_single : ∀ {l : List Char}, (∀ c ∈ l, ¬c = '\n') → splitLines l = [l] := by
  intro l h
  induction l with
  | nil => rfl
  | cons c cs ih =>
    have hc := h c (List.mem_cons_self c cs)
    unfold splitLines
    rw [if_neg hc, ih (fun x hx => h x (List.mem_cons_of_mem c hx))]

/-- Concatenation preserves newline-freedom. -/
theorem noNl_append {l1 l2 : List Char} (h1 : ∀ c ∈ l1, ¬c = '\n')
    (h2 : ∀ c ∈ l2, ¬c = '\n') : ∀ c ∈ l1 ++ l2, ¬c = '\n' := by
  intro c hc
  rcases List.mem_append.mp hc with h | h
  exacts [h1 c h, h2 c h]

/-- Prepending a non-newline character preserves newline-freedom. -/
theorem noNl_cons {a : Char} {l : List Char} (ha : ¬a = '\n')
    (h : ∀ c ∈ l, ¬c = '\n') : ∀ c ∈ a :: l, ¬c = '\n' := by
  intro c hc
  rcases List.mem_cons.mp hc with rfl | h'
  exacts [ha, h c h']

/-- `str(r)` of a well-formed record is a single line. -/
theorem strRecord_no_nl {r : LogLine} (hwf : wfRecord r = true) :
    ∀ c ∈ strRecord r, ¬c = '\n' := by
  obtain ⟨hh1, hh2, hid, hu1, hu2, hreq, hst3, hstd, hsz1, hsz2, hval⟩ := wfRecord_spec hwf
  have hhost : ∀ c ∈ r.hostname, ¬c = '\n' :=
    fun c hc => tokenChar_ne_nl (List.all_eq_true.mp hh2 c hc)
  have hidp : ∀ c ∈ (match r.identity with | some i => ' ' :: i | none => ([] : List Char)),
      ¬c = '\n' := by
    match hidn : r.identity with
    | none => intro c hc; simp at hc
    | some idn =>
      exact noNl_cons (by decide)
        (fun c hc => tokenChar_ne_nl (List.all_eq_true.mp (hid idn hidn).2 c hc))
  have huser : ∀ c ∈ r.user_id, ¬c = '\n' :=
    fun c hc => tokenChar_ne_nl (List.all_eq_true.mp hu2 c hc)
  have hstc : ∀ c ∈ r.status_code, ¬c = '\n' := by
    intro c hc he
    have := List.all_eq_true.mp hstd c hc
    rw [he] at this
    exact absurd this (by decide)
  have hszc : ∀ c ∈ r.response_size, ¬c = '\n' :=
    fun c hc => (isSizeChar_ne (List.all_eq_true.mp hsz2 c hc)).2.1
  unfold strRecord
  exact noNl_append (noNl_append hhost hidp) (noNl_cons (by decide) (noNl_append huser
    (noNl_cons (by decide) (noNl_cons (by decide) (noNl_append (strftime_no_nl hval)
    (noNl_cons (by decide) (noNl_cons (by decide) (noNl_cons (by decide)
    (noNl_append hreq (noNl_cons (by decide) (noNl_cons (by decide)
    (noNl_append hstc (noNl_cons (by decide) hszc)))))))))))))

/-- Re-parsing `str(r)` yields exactly `[r]` for every well-formed
record whose offset is strictly negative. -/
theorem read_build {r : LogLine} (hwf : wfRecord r = true) (hneg : r.date.offMin < 0) :
    read_many_from (strRecordS r) = .ok [r] := by
  have hs : (strRecordS r).data = strRecord r := rfl
  rw [read_many_from, hs, splitLines_single (strRecord_no_nl hwf)]
  rw [readLines, parseLine_build hwf hneg]
  rfl

/-- Every month number in the abbreviation table is valid. -/
theorem monthOfAbbrev_range {a b c : Char} {m : Nat} (h : monthOfAbbrev a b c = some m) :
    1 ≤ m ∧ m ≤ 12 := by
  simp only [monthOfAbbrev, Option.map_eq_some'] at h
  obtain ⟨p, hp, hm⟩ := h
  have hmem := List.find?_some hp
  have hmem2 := List.mem_of_find?_eq_some hp
  have : ∀ q ∈ monthTable, 1 ≤ q.2 ∧ q.2 ≤ 12 := by decide
  rw [← hm]
  exact this p hmem2

/-- Inversion of the date matcher: the line starts with the captured 26
characters (of the right classes) followed by the bracket, space, and
opening quote. -/
theorem parseDateQuote_inv {l dc rest : List Char}
    (h : parseDateQuote l = some (dc, rest)) :
    l = dc ++ ']' :: ' ' :: '"' :: rest ∧
    (∀ c ∈ dc, ¬c = '"' ∧ ¬c = '\n') ∧
    (∀ dt, strptimeApache dc = .ok dt → dtValid dt = true ∧ dt.offMin ≤ 0) := by
  unfold parseDateQuote at h
  split at h
  · split at h
    · rename_i hguard
      injection h with h'
      injection h' with hdc hrest
      subst hdc
      subst hrest
      obtain ⟨g1, g2, g3, g4, g5, g6, g7, g8, g9, g10, g11, g12, g13, g14, g15,
        g16, g17, g18, g19, g20, g21, g22, g23, g24, g25, g26, g27, g28, g29⟩ := hguard
      subst g3; subst g7; subst g12; subst g15; subst g18; subst g21; subst g22
      subst g27; subst g28; subst g29
      refine ⟨by simp, ?_, ?_⟩
      · intro c hc
        simp only [List.mem_cons, List.not_mem_nil, or_false] at hc
        have hdig : ∀ x : Char, x.isDigit = true → ¬x = '"' ∧ ¬x = '\n' :=
          fun x hx => ⟨digit_ne hx (by decide), digit_ne hx (by decide)⟩
        have hword : ∀ x : Char, isWordChar x = true → ¬x = '"' ∧ ¬x = '\n' := by
          intro x hx
          constructor <;> intro he <;> rw [he] at hx <;> exact absurd hx (by decide)
        rcases hc with rfl | rfl | rfl | rfl | rfl | rfl | rfl | rfl | rfl | rfl | rfl | rfl |
          rfl | rfl | rfl | rfl | rfl | rfl | rfl | rfl | rfl | rfl | rfl | rfl | rfl | rfl
        · exact hdig _ g1
        · exact hdig _ g2
        · exact ⟨by decide, by decide⟩
        · exact hword _ g4
        · exact hword _ g5
        · exact hword _ g6
        · exact ⟨by decide, by decide⟩
        · exact hdig _ g8
        · exact hdig _ g9
        · exact hdig _ g10
        · exact hdig _ g11
        · exact ⟨by decide, by decide⟩
        · exact hdig _ g13
        · exact hdig _ g14
        · exact ⟨by decide, by decide⟩
        · exact hdig _ g16
        · exact hdig _ g17
        · exact ⟨by decide, by decide⟩
        · exact hdig _ g19
        · exact hdig _ g20
        · exact ⟨by decide, by decide⟩
        · exact ⟨by decide, by decide⟩
        · exact hdig _ g23
        · exact hdig _ g24
        · exact hdig _ g25
        · exact hdig _ g26
      · intro dt hdt
        simp only [strptimeApache, and_self, and_true, true_and, if_true] at hdt
        split at hdt
        · exact absurd hdt (by simp)
        rename_i mon hmon
        have hmr := monthOfAbbrev_range hmon
        split at hdt
        · exact absurd hdt (by simp)
        split at hdt
        · exact absurd hdt (by simp)
        split at hdt
        · exact absurd hdt (by simp)
        split at hdt
        · exact absurd hdt (by simp)
        rename_i hy hdmon htod hoffb
        injection hdt with hdt'
        subst hdt'
        have cy1 := c2d_le_9 g8
        have cy2 := c2d_le_9 g9
        have cy3 := c2d_le_9 g10
        have cy4 := c2d_le_9 g11
        simp only [dtValid, Bool.and_eq_true, decide_eq_true_eq]
        push_neg at hy hdmon htod hoffb
        refine ⟨⟨⟨⟨⟨⟨⟨⟨⟨⟨?_, ?_⟩, ?_⟩, ?_⟩, ?_⟩, ?_⟩, ?_⟩, ?_⟩, ?_⟩, ?_⟩, ?_⟩ <;> omega
    · exact absurd h (by simp)
  · exact absurd h (by simp)

/-- Inversion of the head matcher: captured tokens are non-empty runs of
token characters, and the date/rest pair comes from the date matcher. -/
theorem parseHead_inv {l ht : List Char} {idt : Option (List Char)} {u dc rest : List Char}
    (hp : parseHead l = some (ht, idt, u, dc, rest)) :
    ht ≠ [] ∧ ht.all isTokenChar = true ∧
    (∀ i, idt = some i → i ≠ [] ∧ i.all isTokenChar = true) ∧
    u ≠ [] ∧ u.all isTokenChar = true ∧
    ∃ z, parseDateQuote z = some (dc, rest) := by
  unfold parseHead at hp
  split at hp
  · exact absurd hp (by simp)
  rename_i t1 r1 heq1
  obtain ⟨f1, f2, _⟩ := parseToken_inv heq1
  split at hp
  · rename_i r2 heq2
    split at hp
    · exact absurd hp (by simp)
    rename_i t2 r3 heq3
    obtain ⟨f3, f4, _⟩ := parseToken_inv heq3
    split at hp
    · rename_i r5 heq5
      rw [Option.map_eq_some'] at hp
      obtain ⟨⟨dcv, restv⟩, hpd, hfe⟩ := hp
      simp only [Prod.mk.injEq] at hfe
      obtain ⟨e1, e2, e3, e4, e5⟩ := hfe
      subst e1; subst e2; subst e3; subst e4; subst e5
      refine ⟨f1, f2, ?_, f3, f4, ⟨r5, hpd⟩⟩
      intro i hi
      exact absurd hi (by simp)
    · rename_i r4 heq4
      split at hp
      · exact absurd hp (by simp)
      rename_i t3 r6 heq6
      obtain ⟨f5, f6, _⟩ := parseToken_inv heq6
      split at hp
      · rename_i r7 heq7
        rw [Option.map_eq_some'] at hp
        obtain ⟨⟨dcv, restv⟩, hpd, hfe⟩ := hp
        simp only [Prod.mk.injEq] at hfe
        obtain ⟨e1, e2, e3, e4, e5⟩ := hfe
        subst e1; subst e2; subst e3; subst e4; subst e5
        refine ⟨f1, f2, ?_, f5, f6, ⟨r7, hpd⟩⟩
        intro i hi
        injection hi with hi'
        subst hi'
        exact ⟨f3, f4⟩
      · exact absurd hp (by simp)
    · exact absurd hp (by simp)
  · exact absurd hp (by simp)

/-- A non-empty list has `isEmpty = false`. -/
theorem isEmpty_false_of_ne {l : List Char} (h : l ≠ []) : l.isEmpty = false := by
  cases l with
  | nil => exact absurd rfl h
  | cons a t => rfl

/-- A list avoiding a character does not `contains` it. -/
theorem contains_false_of_forall {l : List Char} {c : Char}
    (h : ∀ x ∈ l, ¬x = c) : l.contains c = false := by
  rw [List.contains_eq_any_beq]
  rw [List.any_eq_false]
  intro x hx
  simp only [beq_iff_eq]
  intro he
  exact h x hx he.symm

/-- Every record built by `parseLine` satisfies the shape invariant, and
its offset (coming from a `-HHMM` group) is never positive. -/
theorem parseLine_inv {l : List Char} {r : LogLine} (h : parseLine l = .ok (some r)) :
    wfRecord r = true ∧ r.date.offMin ≤ 0 := by
  unfold parseLine at h
  split at h
  · exact absurd h (by simp)
  rename_i m hm
  split at h
  · exact absurd h (by simp)
  rename_i dt hdt
  injection h with h'
  injection h' with h''
  unfold shapeMatch at hm
  split at hm
  · exact absurd hm (by simp)
  rename_i ht idt u dc rest hph
  split at hm
  · exact absurd hm (by simp)
  rename_i req st sz htl
  injection hm with hm'
  subst hm'
  simp only at hdt h''
  subst h''
  obtain ⟨p1, p2, pid, p3, p4, z, hz⟩ := parseHead_inv hph
  obtain ⟨_, hreqnl, hd1, hd2, hd3, hsz1, hsz2⟩ := tail2_inv htl
  obtain ⟨_, _, hstp⟩ := parseDateQuote_inv hz
  obtain ⟨hdtv, hdtle⟩ := hstp dt hdt
  refine ⟨?_, hdtle⟩
  simp only [wfRecord, Bool.and_eq_true, Bool.not_eq_true']
  refine ⟨⟨⟨⟨⟨⟨⟨⟨⟨⟨isEmpty_false_of_ne p1, p2⟩, ?_⟩, isEmpty_false_of_ne p3⟩, p4⟩,
    contains_false_of_forall hreqnl⟩, by simp⟩, ?_⟩, isEmpty_false_of_ne hsz1⟩, hsz2⟩, hdtv⟩
  · cases hidt : idt with
    | none => rfl
    | some i =>
      obtain ⟨hi1, hi2⟩ := pid i hidt
      simp only [Bool.and_eq_true, Bool.not_eq_true']
      exact ⟨isEmpty_false_of_ne hi1, hi2⟩
  · simp only [List.all_cons, List.all_nil, Bool.and_eq_true, and_true]
    exact ⟨hd1, hd2, hd3⟩

/-- Every record in a successful parse result comes from some line. -/
theorem readLines_mem : ∀ {ls : List (List Char)} {rs : List LogLine} {r : LogLine},
    readLines ls = .ok rs → r ∈ rs → ∃ l, parseLine l = .ok (some r) := by
  intro ls
  induction ls with
  | nil =>
    intro rs r h hr
    rw [readLines] at h
    injection h with h'
    subst h'
    simp at hr
  | cons l rest ih =>
    intro rs r h hr
    rw [readLines] at h
    split at h
    · exact absurd h (by simp)
    · exact ih h hr
    · rename_i r0 hr0
      rcases hrr : readLines rest with e | rs'
      · rw [hrr] at h
        exact absurd h (by simp [Except.map])
      · rw [hrr] at h
        simp only [Except.map] at h
        injection h with h'
        subst h'
        rcases List.mem_cons.mp hr with rfl | hr'
        · exact ⟨l, hr0⟩
        · exact ih hrr hr'

/-- Every record in the output of `read_many_from` comes from a line. -/
theorem read_mem {s : String} {rs : List LogLine} {r : LogLine}
    (h : read_many_from s = .ok rs) (hr : r ∈ rs) : ∃ l, parseLine l = .ok (some r) :=
  readLines_mem h hr

/-- C10 (amended): the round trip at the record boundary holds for every
record produced by `read_many_from` whose timestamp offset is non-zero
(the parsed offsets are never positive, and the zero offset re-renders
with a plus sign that the regex rejects): re-parsing `str(r)` yields
exactly one record, equal to `r` in all fields. -/
theorem c10_amended : ∀ (s : String) (rs : List LogLine) (r : LogLine),
    read_many_from s = .ok rs → r ∈ rs → r.date.offMin ≠ 0 →
    read_many_from (strRecordS r) = .ok [r] := by
  intro s rs r h hr h0
  obtain ⟨l, hl⟩ := read_mem h hr
  obtain ⟨hwf, hle⟩ := parseLine_inv hl
  exact read_build hwf (lt_of_le_of_ne hle h0)

/-- C10 witness: the round trip on a concrete `-0600` record. -/
theorem c10_witness :
    read_many_from "10.0.0.1 - - [01/Jan/2020:00:00:00 -0600] \"/a\" 200 512" =
      .ok [mkRecC "/a" 2020 1 1] ∧
    read_many_from (strRecordS (mkRecC "/a" 2020 1 1)) = .ok [mkRecC "/a" 2020 1 1] :=
  ⟨by decide,
   c10_amended "10.0.0.1 - - [01/Jan/2020:00:00:00 -0600] \"/a\" 200 512"
     [mkRecC "/a" 2020 1 1] (mkRecC "/a" 2020 1 1) (by decide) (by decide) (by decide)⟩

/-- C1 (amended): the regexes admit only minus-sign offsets.  The
Scenario A line as written (`+0000`) is rejected; writing the offset
`-0000` yields exactly one record with host `10.0.0.1`, userId `-`,
status 200 and size 512 — with the second `-` token captured as the
identity (not absent) and a zero UTC offset.  In general, every
well-formed record with a `-HHMM` (non-zero) offset renders to a line
the parser accepts as exactly that one record. -/
theorem c1_amended :
    read_many_from "10.0.0.1 - - [01/Jan/2020:00:00:00 -0000] \"GET / HTTP/1.1\" 200 512\n" =
      .ok [recScenarioA] ∧
    read_many_from "10.0.0.1 - - [01/Jan/2020:00:00:00 +0000] \"GET / HTTP/1.1\" 200 512\n" =
      .ok [] ∧
    ∀ r : LogLine, wfRecord r = true → r.date.offMin < 0 →
      read_many_from (strRecordS r) = .ok [r] :=
  ⟨by decide, by decide, fun r hwf hneg => read_build hwf hneg⟩

/-- C1 witness: the general acceptance clause applied to a concrete
record with a `-0600` offset. -/
theorem c1_witness :
    wfRecord (mkRecC "/b" 2021 7 15) = true ∧
    (mkRecC "/b" 2021 7 15).date.offMin < 0 ∧
    read_many_from (strRecordS (mkRecC "/b" 2021 7 15)) = .ok [mkRecC "/b" 2021 7 15] :=
  ⟨by decide, by decide, c1_amended.2.2 (mkRecC "/b" 2021 7 15) (by decide) (by decide)⟩

/-- C9 (amended): the status field of every record is exactly the three
captured digits, so its integer value lies in [0, 999]; the range is not
restricted to [100, 599]. -/
theorem c9_amended : ∀ (s : String) (rs : List LogLine) (r : LogLine),
    read_many_from s = .ok rs → r ∈ rs →
    r.status_code.length = 3 ∧ r.status_code.all Char.isDigit = true ∧ statusVal r ≤ 999 := by
  intro s rs r h hr
  obtain ⟨l, hl⟩ := read_mem h hr
  obtain ⟨hwf, _⟩ := parseLine_inv hl
  obtain ⟨_, _, _, _, _, _, hl3, hld, _, _, _⟩ := wfRecord_spec hwf
  refine ⟨hl3, hld, ?_⟩
  obtain ⟨a, b, c, habc⟩ := List.length_eq_three.mp hl3
  rw [habc] at hld
  simp only [List.all_cons, List.all_nil, Bool.and_eq_true, and_true] at hld
  have ha := c2d_le_9 hld.1
  have hb := c2d_le_9 hld.2.1
  have hc := c2d_le_9 hld.2.2
  simp only [statusVal, habc, List.foldl]
  omega

/-- C9 witness: the bound applied to the record of a concrete line. -/
theorem c9_witness :
    statusVal (mkRecC "/a" 2020 1 1) ≤ 999 :=
  (c9_amended "10.0.0.1 - - [01/Jan/2020:00:00:00 -0600] \"/a\" 200 512"
    [mkRecC "/a" 2020 1 1] (mkRecC "/a" 2020 1 1) (by decide) (by decide)).2.2

/-- A quote-free list has no quote occurrences. -/
theorem count_quote_zero {t : List Char} (h : ∀ c ∈ t, ¬c = '"') : t.count '"' = 0 :=
  List.count_eq_zero.mpr (fun hmem => h _ hmem rfl)

/-- Token runs contain no quote. -/
theorem token_no_quote {t : List Char} (h : t.all isTokenChar = true) :
    ∀ c ∈ t, ¬c = '"' := by
  intro c hc he
  have := List.all_eq_true.mp h c hc
  rw [he] at this
  exact absurd this (by decide)

/-- The matched head of a line contains exactly one quote (the opening
one), and the remainder is part of the line. -/
theorem parseHead_decomp {l ht : List Char} {idt : Option (List Char)} {u dc rest : List Char}
    (hp : parseHead l = some (ht, idt, u, dc, rest)) :
    l.count '"' = 1 + rest.count '"' ∧ (∀ c ∈ rest, c ∈ l) := by
  unfold parseHead at hp
  split at hp
  · exact absurd hp (by simp)
  rename_i t1 r1 heq1
  obtain ⟨_, ftok1, fapp1⟩ := parseToken_inv heq1
  split at hp
  · split at hp
    · exact absurd hp (by simp)
    rename_i t2 r3 heq3
    obtain ⟨_, ftok2, fapp2⟩ := parseToken_inv heq3
    split at hp
    · rw [Option.map_eq_some'] at hp
      obtain ⟨⟨dcv, restv⟩, hpd, hfe⟩ := hp
      simp only [Prod.mk.injEq] at hfe
      obtain ⟨e1, e2, e3, e4, e5⟩ := hfe
      subst e1; subst e2; subst e3; subst e4; subst e5
      obtain ⟨hz, hdcq, _⟩ := parseDateQuote_inv hpd
      subst hz
      rw [← fapp1, ← fapp2]
      constructor
      · simp [List.count_append, List.count_cons,
          count_quote_zero (token_no_quote ftok1), count_quote_zero (token_no_quote ftok2),
          count_quote_zero (fun c hc => (hdcq c hc).1)]
        omega
      · intro c hc
        simp only [List.mem_append, List.mem_cons]
        tauto
    · rename_i hno
      split at hp
      · exact absurd hp (by simp)
      rename_i t3 r6 heq6
      obtain ⟨_, ftok3, fapp3⟩ := parseToken_inv heq6
      split at hp
      · rw [Option.map_eq_some'] at hp
        obtain ⟨⟨dcv, restv⟩, hpd, hfe⟩ := hp
        simp only [Prod.mk.injEq] at hfe
        obtain ⟨e1, e2, e3, e4, e5⟩ := hfe
        subst e1; subst e2; subst e3; subst e4; subst e5
        obtain ⟨hz, hdcq, _⟩ := parseDateQuote_inv hpd
        subst hz
        rw [← fapp1, ← fapp2, ← fapp3]
        constructor
        · simp [List.count_append, List.count_cons,
            count_quote_zero (token_no_quote ftok1), count_quote_zero (token_no_quote ftok2),
            count_quote_zero (token_no_quote ftok3),
            count_quote_zero (fun c hc => (hdcq c hc).1)]
          omega
        · intro c hc
          simp only [List.mem_append, List.mem_cons]
          tauto
      · exact absurd hp (by simp)
    · exact absurd hp (by simp)
  · exact absurd hp (by simp)

/-- Inversion of parsing_1.py's tail matcher: the request is the
quote-free prefix, followed by a well-formed closing pattern. -/
theorem tail1_inv {rest : List Char} (h : tail1 rest = true) :
    ∃ req d1 d2 d3 sz, rest = req ++ '"' :: ' ' :: d1 :: d2 :: d3 :: ' ' :: sz ∧
      (∀ c ∈ req, ¬c = '"') ∧ d1.isDigit = true ∧ d2.isDigit = true ∧ d3.isDigit = true ∧
      sz ≠ [] ∧ sz.all isSizeChar = true := by
  unfold tail1 at h
  split at h
  · rename_i d1 d2 d3 sz heq
    simp only [Bool.and_eq_true, Bool.not_eq_true'] at h
    refine ⟨rest.takeWhile (fun c => !(c = '"')), d1, d2, d3, sz, ?_, ?_,
      h.1.1.1.1, h.1.1.1.2, h.1.1.2, ?_, h.2⟩
    · conv_lhs => rw [← List.takeWhile_append_dropWhile (fun c => !(c = '"')) rest]
      rw [heq]
    · intro c hc
      have := List.mem_takeWhile_imp hc
      simpa using this
    · intro he
      rw [he] at h
      simp at h
  · exact absurd h (by simp)

/-- parsing_1.py's tail matcher accepts a quote-free request followed by
a well-formed closing pattern. -/
theorem tail1_build {req : List Char} {d1 d2 d3 : Char} {sz : List Char}
    (hq : ∀ c ∈ req, ¬c = '"')
    (h1 : d1.isDigit = true) (h2 : d2.isDigit = true) (h3 : d3.isDigit = true)
    (hs1 : sz ≠ []) (hs2 : sz.all isSizeChar = true) :
    tail1 (req ++ '"' :: ' ' :: d1 :: d2 :: d3 :: ' ' :: sz) = true := by
  have hall : req.all (fun c => !(c = '"')) = true :=
    List.all_eq_true.mpr (fun c hc => by simpa using hq c hc)
  have tw := takeWhile_run (h := req) (c := '"')
    (t := ' ' :: d1 :: d2 :: d3 :: ' ' :: sz) hall (by simp)
  unfold tail1
  rw [tw.2]
  simp [h1, h2, h3, isEmpty_false_of_ne hs1, hs2]

/-- Inversion of a full regex match into its head and tail matches. -/
theorem shapeMatch_inv {l : List Char} {m : RawMatch} (h : shapeMatch l = some m) :
    ∃ rest, parseHead l = some (m.host, m.identity, m.user, m.dateChars, rest) ∧
      tail2 rest = some (m.request, m.status, m.size) := by
  unfold shapeMatch at h
  split at h
  · exact absurd h (by simp)
  rename_i ht idt u dc rest hph
  split at h
  · exact absurd h (by simp)
  rename_i req st sz htl
  injection h with h'
  subst h'
  exact ⟨rest, hph, htl⟩

/-- C7 (amended): on newline-free lines, every line accepted by
parsing_1.py's matcher (request `[^\"]*`) is accepted by parsing_2.py's
(request `.*`); and on lines with at most two double quotes the two
matchers agree exactly.  They differ only on lines whose request field
contains a quote, which `.*` can cross and `[^\"]*` cannot. -/
theorem c7_amended :
    (∀ l : List Char, (∀ c ∈ l, ¬c = '\n') → match1 l = true → match2 l = true) ∧
    (∀ l : List Char, (∀ c ∈ l, ¬c = '\n') → l.count '"' ≤ 2 → match1 l = match2 l) := by
  have dir1 : ∀ l : List Char, (∀ c ∈ l, ¬c = '\n') → match1 l = true → match2 l = true := by
    intro l hnl h1
    unfold match1 at h1
    split at h1
    · exact absurd h1 (by simp)
    rename_i ht idt u dc rest hph
    obtain ⟨req, d1, d2, d3, sz, hre, hreq, hd1, hd2, hd3, hs1, hs2⟩ := tail1_inv h1
    have hmem := (parseHead_decomp hph).2
    have hreqnl : ∀ c ∈ req, ¬c = '\n' := by
      intro c hc
      refine hnl c (hmem c ?_)
      rw [hre]
      exact List.mem_append_left _ hc
    have ht2 := tail2_build hreqnl hd1 hd2 hd3 hs1 hs2
    unfold match2 shapeMatch
    rw [hph, hre]
    simp [ht2]
  have dir2 : ∀ l : List Char, l.count '"' ≤ 2 → match2 l = true → match1 l = true := by
    intro l hq h2
    unfold match2 at h2
    obtain ⟨m, hm⟩ := Option.isSome_iff_exists.mp h2
    obtain ⟨rest, hph, htl⟩ := shapeMatch_inv hm
    obtain ⟨hre, hreqnl, hd1, hd2, hd3, hs1, hs2⟩ := tail2_inv htl
    have hcnt := (parseHead_decomp hph).1
    have hszq : m.size.count '"' = 0 :=
      count_quote_zero (fun c hc => (isSizeChar_ne (List.all_eq_true.mp hs2 c hc)).1)
    have hreqz : m.request.count '"' = 0 := by
      rw [hre] at hcnt
      simp only [List.count_append, List.count_cons, hszq] at hcnt
      have e1 : ('"' == '"') = true := by decide
      have e2 : (' ' == '"') = false := by decide
      have e3 : (m.status.1 == '"') = false := by
        simp only [beq_eq_false_iff_ne, ne_eq]
        exact fun he => absurd (he ▸ hd1) (by decide)
      have e4 : (m.status.2.1 == '"') = false := by
        simp only [beq_eq_false_iff_ne, ne_eq]
        exact fun he => absurd (he ▸ hd2) (by decide)
      have e5 : (m.status.2.2 == '"') = false := by
        simp only [beq_eq_false_iff_ne, ne_eq]
        exact fun he => absurd (he ▸ hd3) (by decide)
      rw [e1, e2, e3, e4, e5] at hcnt
      simp at hcnt
      omega
    have hreqq : ∀ c ∈ m.request, ¬c = '"' := by
      intro c hc he
      have := List.count_eq_zero.mp hreqz
      rw [he] at hc
      exact this hc
    have ht1 := tail1_build hreqq hd1 hd2 hd3 hs1 hs2
    unfold match1
    rw [hph, hre]
    exact ht1
  refine ⟨dir1, ?_⟩
  intro l hnl hq
  cases h1 : match1 l <;> cases h2 : match2 l
  · rfl
  · have := dir2 l hq h2
    rw [h1] at this
    exact this
  · have := dir1 l hnl h1
    rw [h2] at this
    exact this.symm
  · rfl

/-- C7 witness: both directions applied to a concrete accepted line. -/
theorem c7_witness :
    match1 "10.0.0.1 - - [01/Jan/2020:00:00:00 -0600] \"GET / HTTP/1.1\" 200 512".data =
      match2 "10.0.0.1 - - [01/Jan/2020:00:00:00 -0600] \"GET / HTTP/1.1\" 200 512".data :=
  c7_amended.2 "10.0.0.1 - - [01/Jan/2020:00:00:00 -0600] \"GET / HTTP/1.1\" 200 512".data
    (by decide) (by decide)


/-- Lookup after a dictionary increment. -/
theorem lookupD_dictIncr (d : List (List Char × Nat)) (k k' : List Char) :
    lookupD (dictIncr d k) k' = lookupD d k' + (if k' = k then 1 else 0) := by
  induction d with
  | nil => by_cases h : k' = k <;> simp [dictIncr, lookupD, h]
  | cons p rest ih =>
    obtain ⟨k0, v⟩ := p
    simp only [dictIncr]
    by_cases h : k = k0
    · subst h
      simp only [if_pos rfl, lookupD]
      by_cases h' : k' = k <;> simp [h']
    · rw [if_neg h]
      simp only [lookupD]
      by_cases h' : k' = k0
      · subst h'
        rw [if_pos rfl, if_pos rfl, if_neg (fun he => h (he.symm))]
        omega
      · rw [if_neg h', if_neg h', ih]

/-- Key order after a dictionary increment: existing keys keep their
places, a new key is appended. -/
theorem keys_dictIncr (d : List (List Char × Nat)) (k : List Char) :
    (dictIncr d k).map Prod.fst =
      if k ∈ d.map Prod.fst then d.map Prod.fst else d.map Prod.fst ++ [k] := by
  induction d with
  | nil => simp [dictIncr]
  | cons p rest ih =>
    obtain ⟨k0, v⟩ := p
    simp only [dictIncr]
    by_cases h : k = k0
    · subst h
      simp
    · rw [if_neg h]
      simp only [List.map_cons, List.mem_cons]
      rw [ih]
      by_cases hm : k ∈ rest.map Prod.fst
      · simp [hm, h]
      · simp [hm, h]

/-- Counter values stay positive under increments. -/
theorem values_pos_dictIncr {d : List (List Char × Nat)} {k : List Char}
    (h : ∀ p ∈ d, 1 ≤ p.2) : ∀ p ∈ dictIncr d k, 1 ≤ p.2 := by
  induction d with
  | nil =>
    intro p hp
    simp only [dictIncr, List.mem_singleton] at hp
    subst hp
    exact le_refl 1
  | cons q rest ih =>
    obtain ⟨k0, v⟩ := q
    intro p hp
    simp only [dictIncr] at hp
    by_cases he : k = k0
    · rw [if_pos he] at hp
      rcases List.mem_cons.mp hp with rfl | hp'
      · simp
      · exact h p (List.mem_cons_of_mem _ hp')
    · rw [if_neg he] at hp
      rcases List.mem_cons.mp hp with rfl | hp'
      · exact h _ (List.mem_cons_self _ _)
      · exact ih (fun q hq => h q (List.mem_cons_of_mem _ hq)) p hp'

/-- First-occurrence deduplication only depends on the membership of the
seen set. -/
theorem dedupAux_congr : ∀ {xs seen seen' : List (List Char)},
    (∀ a, a ∈ seen ↔ a ∈ seen') → dedupAux seen xs = dedupAux seen' xs := by
  intro xs
  induction xs with
  | nil => intro seen seen' h; rfl
  | cons x rest ih =>
    intro seen seen' h
    simp only [dedupAux]
    by_cases hx : x ∈ seen
    · rw [if_pos hx, if_pos ((h x).mp hx), ih h]
    · rw [if_neg hx, if_neg (fun hc => hx ((h x).mpr hc))]
      congr 1
      refine ih ?_
      intro a
      simp only [List.mem_cons]
      constructor
      · rintro (rfl | ha)
        · exact Or.inl rfl
        · exact Or.inr ((h a).mp ha)
      · rintro (rfl | ha)
        · exact Or.inl rfl
        · exact Or.inr ((h a).mpr ha)

/-- The keys of a dictionary built by repeated increments are the first
occurrences of the inserted keys, in order. -/
theorem keys_foldl_dictIncr : ∀ (xs : List (List Char)) (d : List (List Char × Nat)),
    (xs.foldl dictIncr d).map Prod.fst = d.map Prod.fst ++ dedupAux (d.map Prod.fst) xs := by
  intro xs
  induction xs with
  | nil => intro d; simp [dedupAux]
  | cons x rest ih =>
    intro d
    simp only [List.foldl_cons, dedupAux]
    rw [ih]
    by_cases hx : x ∈ d.map Prod.fst
    · rw [if_pos hx, keys_dictIncr, if_pos hx]
    · rw [if_neg hx, keys_dictIncr, if_neg hx, List.append_assoc, List.singleton_append]
      congr 1
      congr 1
      refine dedupAux_congr ?_
      intro a
      simp only [List.mem_append, List.mem_cons, List.mem_singleton]
      tauto

/-- The final counter of each key is its occurrence count. -/
theorem lookupD_foldl_dictIncr : ∀ (xs : List (List Char)) (d : List (List Char × Nat))
    (k : List Char), lookupD (xs.foldl dictIncr d) k = lookupD d k + xs.count k := by
  intro xs
  induction xs with
  | nil => intro d k; simp
  | cons x rest ih =>
    intro d k
    simp only [List.foldl_cons]
    rw [ih, lookupD_dictIncr, List.count_cons]
    by_cases h : k = x
    · simp [h]
      omega
    · have : (x == k) = false := by
        simp only [beq_eq_false_iff_ne, ne_eq]
        exact fun he => h he.symm
      simp [h, this]

/-- Deduplicated elements avoid the seen set. -/
theorem dedupAux_not_mem_seen : ∀ {xs seen : List (List Char)} {a : List Char},
    a ∈ dedupAux seen xs → a ∉ seen := by
  intro xs
  induction xs with
  | nil => intro seen a ha; simp [dedupAux] at ha
  | cons x rest ih =>
    intro seen a ha
    simp only [dedupAux] at ha
    by_cases hx : x ∈ seen
    · rw [if_pos hx] at ha
      exact ih ha
    · rw [if_neg hx] at ha
      rcases List.mem_cons.mp ha with rfl | ha'
      · exact hx
      · have := ih ha'
        intro hc
        exact this (List.mem_cons_of_mem _ hc)

/-- Deduplication yields distinct keys. -/
theorem dedupAux_nodup : ∀ (xs seen : List (List Char)), (dedupAux seen xs).Nodup := by
  intro xs
  induction xs with
  | nil => intro seen; simp [dedupAux]
  | cons x rest ih =>
    intro seen
    simp only [dedupAux]
    by_cases hx : x ∈ seen
    · rw [if_pos hx]; exact ih seen
    · rw [if_neg hx]
      refine List.nodup_cons.mpr ⟨?_, ih (x :: seen)⟩
      intro hc
      exact dedupAux_not_mem_seen hc (List.mem_cons_self x seen)

/-- With distinct keys, lookup returns the stored value. -/
theorem lookupD_of_mem : ∀ {d : List (List Char × Nat)} {k : List Char} {v : Nat},
    (d.map Prod.fst).Nodup → (k, v) ∈ d → lookupD d k = v := by
  intro d
  induction d with
  | nil => intro k v _ h; simp at h
  | cons p rest ih =>
    obtain ⟨k0, v0⟩ := p
    intro k v hnd hm
    simp only [List.map_cons, List.nodup_cons] at hnd
    simp only [lookupD]
    rcases List.mem_cons.mp hm with he | hm'
    · injection he with e1 e2
      subst e1
      subst e2
      rw [if_pos rfl]
    · have hk : ¬k = k0 := by
        intro he
        subst he
        exact hnd.1 (List.mem_map.mpr ⟨(k, v), hm', rfl⟩)
      rw [if_neg hk]
      exact ih hnd.2 hm'

/-- All counters of a built dictionary are positive. -/
theorem values_pos_foldl : ∀ {xs : List (List Char)} {d : List (List Char × Nat)},
    (∀ p ∈ d, 1 ≤ p.2) → ∀ p ∈ xs.foldl dictIncr d, 1 ≤ p.2 := by
  intro xs
  induction xs with
  | nil => intro d h p hp; exact h p hp
  | cons x rest ih =>
    intro d h p hp
    simp only [List.foldl_cons] at hp
    exact ih (values_pos_dictIncr h) p hp

/-- `requests_dict`: keys are the distinct request strings in order of
first occurrence in the sorted sequence; values are occurrence counts;
all values are positive. -/
theorem requests_dict_spec (lines : List LogLine) :
    (requests_dict lines).map Prod.fst = dedupFirst ((sortByDate lines).map LogLine.request) ∧
    (∀ p ∈ requests_dict lines, p.2 = ((sortByDate lines).map LogLine.request).count p.1) ∧
    (∀ p ∈ requests_dict lines, 1 ≤ p.2) := by
  have hfold : requests_dict lines =
      ((sortByDate lines).map LogLine.request).foldl dictIncr [] := by
    rw [requests_dict, List.foldl_map]
  have hkeys := keys_foldl_dictIncr ((sortByDate lines).map LogLine.request) []
  simp only [List.map_nil, List.nil_append] at hkeys
  have hnodup : ((requests_dict lines).map Prod.fst).Nodup := by
    rw [hfold, hkeys]
    exact dedupAux_nodup _ _
  refine ⟨by rw [hfold, hkeys]; rfl, ?_, ?_⟩
  · intro p hp
    obtain ⟨k, v⟩ := p
    have hl : lookupD (requests_dict lines) k = v := lookupD_of_mem hnodup hp
    rw [hfold] at hl
    rw [lookupD_foldl_dictIncr] at hl
    simp only [lookupD] at hl
    show v = ((sortByDate lines).map LogLine.request).count k
    omega
  · intro p hp
    rw [hfold] at hp
    exact values_pos_foldl (by simp) p hp

/-- The max-requests loop either never updates (all counts at most the
initial bound) or returns the first entry attaining the maximum count. -/
theorem maxFold_spec : ∀ (d : List (List Char × Nat)) (B : Nat) (n : List Char),
    (d.foldl (fun acc p => if acc.1 < p.2 then (p.2, p.1) else acc) (B, n) = (B, n) ∧
      ∀ p ∈ d, p.2 ≤ B) ∨
    (∃ i, i < d.length ∧
      d.foldl (fun acc p => if acc.1 < p.2 then (p.2, p.1) else acc) (B, n) =
        ((d.getD i ([], 0)).2, (d.getD i ([], 0)).1) ∧
      B < (d.getD i ([], 0)).2 ∧
      (∀ p ∈ d, p.2 ≤ (d.getD i ([], 0)).2) ∧
      (∀ j, j < i → (d.getD j ([], 0)).2 < (d.getD i ([], 0)).2)) := by
  intro d
  induction d with
  | nil => intro B n; exact Or.inl ⟨rfl, by simp⟩
  | cons p rest ih =>
    intro B n
    obtain ⟨k, v⟩ := p
    simp only [List.foldl_cons]
    by_cases hc : B < v
    · rw [if_pos hc]
      rcases ih v k with ⟨heq, hall⟩ | ⟨i, hi, heq, hgt, hall, hfirst⟩
      · refine Or.inr ⟨0, by simp, ?_, ?_, ?_, ?_⟩
        · simpa using heq
        · simpa using hc
        · intro q hq
          rcases List.mem_cons.mp hq with rfl | hq'
          · simp
          · simpa using hall q hq'
        · intro j hj
          omega
      · refine Or.inr ⟨i + 1, by simpa using hi, ?_, ?_, ?_, ?_⟩
        · simpa using heq
        · simp only [List.getD_cons_succ]
          exact lt_trans hc hgt
        · intro q hq
          simp only [List.getD_cons_succ]
          rcases List.mem_cons.mp hq with rfl | hq'
          · exact le_of_lt hgt
          · exact hall q hq'
        · intro j hj
          cases j with
          | zero => simp only [List.getD_cons_zero, List.getD_cons_succ]; exact hgt
          | succ j' =>
            simp only [List.getD_cons_succ]
            exact hfirst j' (by omega)
    · rw [if_neg hc]
      rcases ih B n with ⟨heq, hall⟩ | ⟨i, hi, heq, hgt, hall, hfirst⟩
      · refine Or.inl ⟨heq, ?_⟩
        intro q hq
        rcases List.mem_cons.mp hq with rfl | hq'
        · omega
        · exact hall q hq'
      · refine Or.inr ⟨i + 1, by simpa using hi, ?_, ?_, ?_, ?_⟩
        · simpa using heq
        · simp only [List.getD_cons_succ]
          exact hgt
        · intro q hq
          simp only [List.getD_cons_succ]
          rcases List.mem_cons.mp hq with rfl | hq'
          · omega
          · exact hall q hq'
        · intro j hj
          cases j with
          | zero =>
            simp only [List.getD_cons_zero, List.getD_cons_succ]
            omega
          | succ j' =>
            simp only [List.getD_cons_succ]
            exact hfirst j' (by omega)

/-- The min-requests loop either never updates or returns the first
entry attaining the minimum count. -/
theorem minFold_spec : ∀ (d : List (List Char × Nat)) (b : Option Nat) (n : List Char),
    (d.foldl (fun acc p => if ltInf p.2 acc.1 then (some p.2, p.1) else acc) (b, n) = (b, n) ∧
      ∀ p ∈ d, ltInf p.2 b = false) ∨
    (∃ i, i < d.length ∧
      d.foldl (fun acc p => if ltInf p.2 acc.1 then (some p.2, p.1) else acc) (b, n) =
        (some (d.getD i ([], 0)).2, (d.getD i ([], 0)).1) ∧
      ltInf (d.getD i ([], 0)).2 b = true ∧
      (∀ p ∈ d, (d.getD i ([], 0)).2 ≤ p.2) ∧
      (∀ j, j < i → (d.getD i ([], 0)).2 < (d.getD j ([], 0)).2)) := by
  intro d
  induction d with
  | nil => intro b n; exact Or.inl ⟨rfl, by simp⟩
  | cons p rest ih =>
    intro b n
    obtain ⟨k, v⟩ := p
    simp only [List.foldl_cons]
    by_cases hc : ltInf v b = true
    · rw [if_pos hc]
      rcases ih (some v) k with ⟨heq, hall⟩ | ⟨i, hi, heq, hlt, hall, hfirst⟩
      · refine Or.inr ⟨0, by simp, ?_, ?_, ?_, ?_⟩
        · simpa using heq
        · simpa using hc
        · intro q hq
          rcases List.mem_cons.mp hq with rfl | hq'
          · simp
          · have := hall q hq'
            simp only [ltInf, decide_eq_false_iff_not, not_lt] at this
            simpa using this
        · intro j hj
          omega
      · have hiv : (rest.getD i ([], 0)).2 < v := by
          have := hlt
          simp only [ltInf, decide_eq_true_eq] at this
          exact this
        refine Or.inr ⟨i + 1, by simpa using hi, ?_, ?_, ?_, ?_⟩
        · simpa using heq
        · simp only [List.getD_cons_succ]
          cases b with
          | none => rfl
          | some w =>
            simp only [ltInf, decide_eq_true_eq] at hc ⊢
            omega
        · intro q hq
          simp only [List.getD_cons_succ]
          rcases List.mem_cons.mp hq with rfl | hq'
          · exact le_of_lt hiv
          · exact hall q hq'
        · intro j hj
          cases j with
          | zero => simp only [List.getD_cons_zero, List.getD_cons_succ]; exact hiv
          | succ j' =>
            simp only [List.getD_cons_succ]
            exact hfirst j' (by omega)
    · rw [if_neg hc]
      have hbv : ∃ w, b = some w ∧ w ≤ v := by
        cases b with
        | none => simp [ltInf] at hc
        | some w =>
          simp only [ltInf, decide_eq_true_eq, not_lt] at hc
          exact ⟨w, rfl, by omega⟩
      obtain ⟨w, rfl, hwv⟩ := hbv
      rcases ih (some w) n with ⟨heq, hall⟩ | ⟨i, hi, heq, hlt, hall, hfirst⟩
      · refine Or.inl ⟨heq, ?_⟩
        intro q hq
        rcases List.mem_cons.mp hq with rfl | hq'
        · simpa using hc
        · exact hall q hq'
      · have hiw : (rest.getD i ([], 0)).2 < w := by
          simpa only [ltInf, decide_eq_true_eq] using hlt
        refine Or.inr ⟨i + 1, by simpa using hi, ?_, ?_, ?_, ?_⟩
        · simpa using heq
        · simp only [List.getD_cons_succ, ltInf, decide_eq_true_eq]
          omega
        · intro q hq
          simp only [List.getD_cons_succ]
          rcases List.mem_cons.mp hq with rfl | hq'
          · simp only []
            omega
          · exact hall q hq'
        · intro j hj
          cases j with
          | zero =>
            simp only [List.getD_cons_zero, List.getD_cons_succ]
            omega
          | succ j' =>
            simp only [List.getD_cons_succ]
            exact hfirst j' (by omega)

/-- A non-empty record sequence yields a non-empty request dictionary. -/
theorem requests_dict_ne_nil {lines : List LogLine} (h : lines ≠ []) :
    requests_dict lines ≠ [] := by
  intro he
  have hkeys := (requests_dict_spec lines).1
  rw [he] at hkeys
  have hs : sortByDate lines ≠ [] := by
    intro hs
    have := List.length_insertionSort (fun a b => dateKey a.date ≤ dateKey b.date) lines
    rw [← sortByDate, hs] at this
    exact h (List.length_eq_zero.mp this.symm)
  obtain ⟨r0, rest, hr⟩ := List.exists_cons_of_ne_nil hs
  rw [hr] at hkeys
  simp [dedupFirst, dedupAux] at hkeys

/-- C6 (amended): for every non-empty record sequence, the reported
most- and least-requested names do attain the maximum resp. minimum
group count, but ties are broken by first occurrence in the
*timestamp-sorted* sequence (the dictionary is built by iterating the
already-sorted list, and the strict-comparison loops keep the earliest
insertion-ordered entry), not by first occurrence in the original
pre-sort sequence. -/
theorem c6_amended : ∀ lines : List LogLine, lines ≠ [] →
    ((requests_dict lines).map Prod.fst = dedupFirst ((sortByDate lines).map LogLine.request)) ∧
    (∀ p ∈ requests_dict lines, p.2 = ((sortByDate lines).map LogLine.request).count p.1) ∧
    (∃ i, i < (requests_dict lines).length ∧
      ((requests_dict lines).getD i ([], 0)).1 = max_requests_name lines ∧
      (∀ p ∈ requests_dict lines, p.2 ≤ ((requests_dict lines).getD i ([], 0)).2) ∧
      (∀ j, j < i →
        ((requests_dict lines).getD j ([], 0)).2 < ((requests_dict lines).getD i ([], 0)).2)) ∧
    (∃ i, i < (requests_dict lines).length ∧
      ((requests_dict lines).getD i ([], 0)).1 = min_requests_name lines ∧
      (∀ p ∈ requests_dict lines, ((requests_dict lines).getD i ([], 0)).2 ≤ p.2) ∧
      (∀ j, j < i →
        ((requests_dict lines).getD i ([], 0)).2 < ((requests_dict lines).getD j ([], 0)).2)) := by
  intro lines hne
  obtain ⟨hkeys, hvals, hpos⟩ := requests_dict_spec lines
  have hd := requests_dict_ne_nil hne
  obtain ⟨p0, drest, hd0⟩ := List.exists_cons_of_ne_nil hd
  refine ⟨hkeys, hvals, ?_, ?_⟩
  · rcases maxFold_spec (requests_dict lines) 0 startName with ⟨heq, hall⟩ | ⟨i, hi, heq, _, hall, hfirst⟩
    · have h1 := hpos p0 (by rw [hd0]; exact List.mem_cons_self _ _)
      have h2 := hall p0 (by rw [hd0]; exact List.mem_cons_self _ _)
      omega
    · refine ⟨i, hi, ?_, hall, hfirst⟩
      simp only [max_requests_name, maxLoop, heq]
  · rcases minFold_spec (requests_dict lines) none startName with ⟨heq, hall⟩ | ⟨i, hi, heq, _, hall, hfirst⟩
    · have h2 := hall p0 (by rw [hd0]; exact List.mem_cons_self _ _)
      simp [ltInf] at h2
    · refine ⟨i, hi, ?_, hall, hfirst⟩
      simp only [min_requests_name, minLoop, heq]

/-- C6 witness: the amended statement applied to a concrete two-record
sequence. -/
theorem c6_witness :
    ((requests_dict [mkRecC "/a" 2021 2 1, mkRecC "/b" 2021 1 1]).map Prod.fst =
      dedupFirst (((sortByDate [mkRecC "/a" 2021 2 1, mkRecC "/b" 2021 1 1]).map
        LogLine.request))) ∧
    (∃ i, i < (requests_dict [mkRecC "/a" 2021 2 1, mkRecC "/b" 2021 1 1]).length ∧
      ((requests_dict [mkRecC "/a" 2021 2 1, mkRecC "/b" 2021 1 1]).getD i ([], 0)).1 =
        max_requests_name [mkRecC "/a" 2021 2 1, mkRecC "/b" 2021 1 1] ∧
      (∀ p ∈ requests_dict [mkRecC "/a" 2021 2 1, mkRecC "/b" 2021 1 1],
        p.2 ≤ ((requests_dict [mkRecC "/a" 2021 2 1, mkRecC "/b" 2021 1 1]).getD i ([], 0)).2) ∧
      (∀ j, j < i →
        ((requests_dict [mkRecC "/a" 2021 2 1, mkRecC "/b" 2021 1 1]).getD j ([], 0)).2 <
          ((requests_dict [mkRecC "/a" 2021 2 1, mkRecC "/b" 2021 1 1]).getD i ([], 0)).2)) :=
  ⟨(c6_amended [mkRecC "/a" 2021 2 1, mkRecC "/b" 2021 1 1] (by decide)).1,
   (c6_amended [mkRecC "/a" 2021 2 1, mkRecC "/b" 2021 1 1] (by decide)).2.2.1⟩

/-- The stable sort by timestamp produces a list that is pairwise ordered
by the aware-datetime comparison key. -/
theorem sortByDate_sorted (lines : List LogLine) :
    List.Pairwise (fun a b => dateKey a.date ≤ dateKey b.date) (sortByDate lines) := by
  have ht : IsTotal LogLine (fun a b => dateKey a.date ≤ dateKey b.date) :=
    ⟨fun a b => le_total _ _⟩
  have htr : IsTrans LogLine (fun a b => dateKey a.date ≤ dateKey b.date) :=
    ⟨fun a b c => le_trans⟩
  exact @List.sorted_insertionSort _ _ _ ht htr lines

/-- The key list extracted from the sorted records is itself sorted. -/
theorem sortedKeys_sorted (lines : List LogLine) :
    List.Pairwise (· ≤ ·) (sortedKeys lines) := by
  rw [sortedKeys]
  rw [List.pairwise_map]
  exact sortByDate_sorted lines

/-- In a pairwise-sorted list, `getD` is monotone below the length. -/
theorem pairwise_getD_le {ks : List Int} (h : List.Pairwise (· ≤ ·) ks)
    {i j : Nat} (hij : i ≤ j) (hj : j < ks.length) : ks.getD i 0 ≤ ks.getD j 0 := by
  have hi : i < ks.length := lt_of_le_of_lt hij hj
  rw [List.getD_eq_getElem ks 0 hi, List.getD_eq_getElem ks 0 hj]
  rcases Nat.lt_or_ge i j with hlt | hge
  · exact List.pairwise_iff_getElem.mp h i j hi hj hlt
  · have : i = j := by omega
    subst this
    exact le_refl _

/-- Invariant of the `bisect_left` while-loop: on a sorted key list, given
enough fuel, the loop returns the leftmost insertion point within `[lo, hi]`. -/
theorem bisectLoop_spec (ks : List Int) (x : Int) (hs : List.Pairwise (· ≤ ·) ks) :
    ∀ (n lo hi : Nat), hi - lo ≤ n → lo ≤ hi → hi ≤ ks.length →
    (∀ j, j < lo → ks.getD j 0 < x) →
    (∀ j, hi ≤ j → j < ks.length → x ≤ ks.getD j 0) →
    lo ≤ bisectLoop ks x n lo hi ∧ bisectLoop ks x n lo hi ≤ hi ∧
    (∀ j, j < bisectLoop ks x n lo hi → ks.getD j 0 < x) ∧
    (∀ j, bisectLoop ks x n lo hi ≤ j → j < ks.length → x ≤ ks.getD j 0) := by
  intro n
  induction n with
  | zero =>
    intro lo hi h0 hlh hlen hlow hhigh
    simp only [bisectLoop]
    exact ⟨le_refl _, by omega, hlow, fun j hj hjl => hhigh j (by omega) hjl⟩
  | succ n ih =>
    intro lo hi h0 hlh hlen hlow hhigh
    by_cases hc : lo < hi
    · rw [bisectLoop, if_pos hc]
      by_cases hcm : ks.getD ((lo + hi) / 2) 0 < x
      · rw [if_pos hcm]
        have H := ih ((lo + hi) / 2 + 1) hi (by omega) (by omega) hlen
          (fun j hj => lt_of_le_of_lt (pairwise_getD_le hs (by omega) (by omega)) hcm) hhigh
        exact ⟨le_trans (by omega) H.1, H.2.1, H.2.2.1, H.2.2.2⟩
      · rw [if_neg hcm]
        have H := ih lo ((lo + hi) / 2) (by omega) (by omega) (by omega) hlow
          (fun j hj hjl => le_trans (not_lt.mp hcm) (pairwise_getD_le hs hj hjl))
        exact ⟨H.1, le_trans H.2.1 (by omega), H.2.2.1, H.2.2.2⟩
    · rw [bisectLoop, if_neg hc]
      exact ⟨le_refl _, by omega, hlow, fun j hj hjl => hhigh j (by omega) hjl⟩

/-- On a sorted key list, `bisect_left` returns the leftmost insertion
point: every key strictly before it is `< x`, every key at or after it is `≥ x`. -/
theorem bisect_left_spec (ks : List Int) (x : Int) (hs : List.Pairwise (· ≤ ·) ks) :
    bisect_left ks x ≤ ks.length ∧
    (∀ j, j < bisect_left ks x → ks.getD j 0 < x) ∧
    (∀ j, bisect_left ks x ≤ j → j < ks.length → x ≤ ks.getD j 0) := by
  have := bisectLoop_spec ks x hs ks.length 0 ks.length (by omega) (by omega) (le_refl _)
    (by omega) (by omega)
  exact ⟨this.2.1, this.2.2.1, this.2.2.2⟩

/-- C8: the six-month window is computed by sorting the records by timestamp,
taking the cutoff from the last record, and slicing from the leftmost
insertion point of the cutoff found by `bisect_left`. Whenever the cutoff
computation succeeds, the window is exactly the suffix of the sorted sequence
from that index: every key before the index is earlier than the cutoff, every
key from the index on is not earlier, and every record in the window has a
timestamp not earlier than the cutoff. Concretely (Scenario D), with the last
record at 2021-07-15 the cutoff is 2021-01-15, and of records at 2021-01-10,
2021-07-15 and 2021-01-20 the window keeps exactly the latter two. -/
theorem c8_confirmed :
    (∀ (lines : List LogLine) (lastLine : LogLine) (cutoff : DateTime),
      (sortByDate lines).getLast? = some lastLine →
      six_months_before_last lastLine.date = .ok cutoff →
      six_months_index lines cutoff ≤ (sortByDate lines).length ∧
      last_six_months lines cutoff = (sortByDate lines).drop (six_months_index lines cutoff) ∧
      (∀ j, j < six_months_index lines cutoff → (sortedKeys lines).getD j 0 < dateKey cutoff) ∧
      (∀ j, six_months_index lines cutoff ≤ j → j < (sortedKeys lines).length →
        dateKey cutoff ≤ (sortedKeys lines).getD j 0) ∧
      (∀ r ∈ last_six_months lines cutoff, dateKey cutoff ≤ dateKey r.date)) ∧
    (six_months_before_last ⟨2021, 7, 15, 0, 0, 0, -360⟩ = .ok ⟨2021, 1, 15, 0, 0, 0, -360⟩ ∧
     last_six_months [mkRecC "/a" 2021 1 10, mkRecC "/b" 2021 7 15, mkRecC "/c" 2021 1 20]
         ⟨2021, 1, 15, 0, 0, 0, -360⟩ =
       [mkRecC "/c" 2021 1 20, mkRecC "/b" 2021 7 15]) := by
  constructor
  · intro lines lastLine cutoff _ _
    have hs := sortedKeys_sorted lines
    have hb := bisect_left_spec (sortedKeys lines) (dateKey cutoff) hs
    have hlen : (sortedKeys lines).length = (sortByDate lines).length := by
      rw [sortedKeys, List.length_map]
    have hi1 : six_months_index lines cutoff ≤ (sortedKeys lines).length := hb.1
    refine ⟨by rw [six_months_index, ← hlen]; exact hb.1, rfl, hb.2.1, hb.2.2, ?_⟩
    intro r hr
    rw [last_six_months] at hr
    have hk : dateKey r.date ∈ (sortedKeys lines).drop (six_months_index lines cutoff) := by
      rw [sortedKeys, ← List.map_drop]
      exact List.mem_map.mpr ⟨r, hr, rfl⟩
    obtain ⟨j, hj, hjv⟩ := List.mem_iff_getElem.mp hk
    rw [List.getElem_drop] at hjv
    have hjl : six_months_index lines cutoff + j < (sortedKeys lines).length := by
      rw [List.length_drop] at hj
      omega
    have hge := hb.2.2 (six_months_index lines cutoff + j) (Nat.le_add_right _ _) hjl
    rw [List.getD_eq_getElem _ 0 hjl] at hge
    rw [hjv] at hge
    exact hge
  · exact ⟨by decide, by decide⟩

/-- C8 witness: the general window property instantiated at the concrete
Scenario D record list, all hypotheses discharged by evaluation. -/
theorem c8_witness :
    (sortByDate [mkRecC "/a" 2021 1 10, mkRecC "/b" 2021 7 15,
        mkRecC "/c" 2021 1 20]).getLast? = some (mkRecC "/b" 2021 7 15) ∧
    six_months_before_last (mkRecC "/b" 2021 7 15).date =
      .ok ⟨2021, 1, 15, 0, 0, 0, -360⟩ ∧
    (∀ r ∈ last_six_months [mkRecC "/a" 2021 1 10, mkRecC "/b" 2021 7 15,
        mkRecC "/c" 2021 1 20] ⟨2021, 1, 15, 0, 0, 0, -360⟩,
      dateKey ⟨2021, 1, 15, 0, 0, 0, -360⟩ ≤ dateKey r.date) :=
  ⟨by decide, by decide,
   (c8_confirmed.1 [mkRecC "/a" 2021 1 10, mkRecC "/b" 2021 7 15, mkRecC "/c" 2021 1 20]
     (mkRecC "/b" 2021 7 15) ⟨2021, 1, 15, 0, 0, 0, -360⟩
     (by decide) (by decide)).2.2.2.2⟩
